import Mathlib

/-!
CircularBuffer: a shallow embedding of `CircularBuffer.cpp`.

The class `CircularBuffer` is embedded as a record of its data members and its
member functions as pure functions that pass the record explicitly.

Modelling conventions.

* `int` values are integers (`Int`) that lie in the 32-bit range.  The one place where the
  code can leave that range is `index += bytes` in `_updateIndex`, where the sum of a cursor and
  a byte count exceeds `INT_MAX` once the capacity is above `2^30`; there the embedding takes
  the two's-complement result, as the compiled code does.  Every other arithmetic expression
  of the member functions stays in range whenever `0 <= _size <= _capacity` and the cursors
  are valid indices, and `_size` itself is computed from `_capacity`, `_size` and the length
  argument only.
* A byte region (`unsigned char *`, `void *`) is a map from the offset relative to
  its base pointer to the byte stored there.  A null pointer is `none`.
* A reference out-parameter (`int& bytesWritten`) is passed in and returned.
-/

namespace CircularBuffer

/-- An `unsigned char`. -/
abbrev Byte := Fin 256

/-- A byte region addressed by the offset from its base pointer. -/
abbrev Mem := Int → Byte

/-- Effect of `memmove(dst + dstOff, src + srcOff, n)` on the region `dst`, for regions
that do not overlap: the `n` bytes at `src + srcOff` land at `dst + dstOff`, and every other
byte of `dst` stays as it was (so a count `n <= 0` copies nothing). -/
def memmove (dst : Mem) (dstOff : Int) (src : Mem) (srcOff : Int) (n : Int) : Mem :=
  fun i => if dstOff ≤ i ∧ i < dstOff + n then src (srcOff + (i - dstOff)) else dst i

end CircularBuffer

/-- The data members of `class CircularBuffer`. -/
structure CircularBuffer where
  _capacity : Int
  _iProducer : Int
  _iConsumer : Int
  _size : Int
  _overwriteWhenFull : Bool
  _buffer : CircularBuffer.Mem

namespace CircularBuffer

/-- The constructor `CircularBuffer(capacityInBytes, overwriteWhenFull)`; the failing
`assert(_overwriteWhenFull == false)` is `none`.  `make_unique<unsigned char[]>` value-initialises
the storage, so every byte starts as zero. -/
def construct (capacityInBytes : Int) (overwriteWhenFull : Bool) : Option CircularBuffer :=
  if overwriteWhenFull = false then
    some { _capacity := capacityInBytes, _iProducer := 0, _iConsumer := 0, _size := 0,
           _overwriteWhenFull := overwriteWhenFull, _buffer := fun _ => 0 }
  else none

/-- The member `bool empty()`. -/
def empty (cb : CircularBuffer) : Bool := decide (cb._size = 0)

/-- The member `int size()`. -/
def size (cb : CircularBuffer) : Int := cb._size

/-- The private member `int _availableSpace()`. -/
def _availableSpace (cb : CircularBuffer) : Int := cb._capacity - cb._size

/-- The largest value of an `int`. -/
def INT_MAX : Int := 2147483647

/-- The smallest value of an `int`. -/
def INT_MIN : Int := -2147483648

/-- The `int` that the mathematical result `x` of an `int` operation is stored as: `x` itself
when it is in range, otherwise `x` wrapped by `2^32` (two's complement). -/
def wrapInt (x : Int) : Int := (x + 2147483648) % 4294967296 - 2147483648

/-- The sum `a + b` of two `int` values as the machine computes it.  Arguments that are not
`int` values are outside the machine's domain; for them the sum is the mathematical one. -/
def intAdd (a b : Int) : Int :=
  if INT_MIN ≤ a ∧ a ≤ INT_MAX ∧ INT_MIN ≤ b ∧ b ≤ INT_MAX then wrapInt (a + b) else a + b

/-- The difference `a - b` of two `int` values as the machine computes it.  Arguments that are
not `int` values are outside the machine's domain; for them the difference is the mathematical
one. -/
def intSub (a b : Int) : Int :=
  if INT_MIN ≤ a ∧ a ≤ INT_MAX ∧ INT_MIN ≤ b ∧ b ≤ INT_MAX then wrapInt (a - b) else a - b

/-- The private member `void _updateIndex(int& index, int bytes)`, returning the new value of
`index`: `index += bytes; if (index >= _capacity) index -= _capacity;` in `int` arithmetic. -/
def _updateIndex (cb : CircularBuffer) (index : Int) (bytes : Int) : Int :=
  let index := intAdd index bytes
  if index ≥ cb._capacity then intSub index cb._capacity else index

/-- What a call of `write` leaves behind: the returned flag, the object, and the caller's
`bytesWritten` variable. -/
structure WriteResult where
  ok : Bool
  cb : CircularBuffer
  bytesWritten : Int

/-- What a call of `read` leaves behind: the returned flag, the object, the caller's buffer, and
the caller's `bytesRead` variable. -/
structure ReadResult where
  ok : Bool
  cb : CircularBuffer
  buffer : Option Mem
  bytesRead : Int

/-- The member `bool write(void *const buffer, int bufferSize, int& bytesWritten)`. -/
def write (cb : CircularBuffer) (buffer : Option Mem) (bufferSize : Int) (bytesWritten : Int) :
    WriteResult :=
  match buffer with
  | none => { ok := false, cb := cb, bytesWritten := bytesWritten }
  | some buffer =>
    let totalBytesToWrite := min cb._availableSpace bufferSize
    if totalBytesToWrite ≤ 0 then
      { ok := false, cb := cb, bytesWritten := bytesWritten }
    else
      let storage : Mem :=
        if cb._iProducer < cb._iConsumer then
          memmove cb._buffer cb._iProducer buffer 0 totalBytesToWrite
        else
          let bytesAvailableBetweeniProducerAndEndOfBuffer := cb._capacity - cb._iProducer
          if bytesAvailableBetweeniProducerAndEndOfBuffer ≥ totalBytesToWrite then
            memmove cb._buffer cb._iProducer buffer 0 totalBytesToWrite
          else
            memmove
              (memmove cb._buffer cb._iProducer buffer 0
                bytesAvailableBetweeniProducerAndEndOfBuffer)
              0 buffer bytesAvailableBetweeniProducerAndEndOfBuffer
              (totalBytesToWrite - bytesAvailableBetweeniProducerAndEndOfBuffer)
      let cb1 : CircularBuffer := { cb with _buffer := storage, _size := cb._size + totalBytesToWrite }
      let cb2 : CircularBuffer :=
        { cb1 with _iProducer := cb1._updateIndex cb1._iProducer totalBytesToWrite }
      { ok := true, cb := cb2, bytesWritten := totalBytesToWrite }

/-- The member `bool read(void *const buffer, int bufferSize, int& bytesRead)`. -/
def read (cb : CircularBuffer) (buffer : Option Mem) (bufferSize : Int) (bytesRead : Int) :
    ReadResult :=
  match buffer with
  | none => { ok := false, cb := cb, buffer := none, bytesRead := bytesRead }
  | some buffer =>
    let totalBytesToRead := min cb._size bufferSize
    if totalBytesToRead ≤ 0 then
      { ok := false, cb := cb, buffer := some buffer, bytesRead := bytesRead }
    else
      let out : Mem :=
        if cb._iConsumer < cb._iProducer then
          memmove buffer 0 cb._buffer cb._iConsumer totalBytesToRead
        else
          let bytesAvailableBetweeniConsumerAndEndOfBuffer := cb._capacity - cb._iConsumer
          if totalBytesToRead ≤ bytesAvailableBetweeniConsumerAndEndOfBuffer then
            memmove buffer 0 cb._buffer cb._iConsumer totalBytesToRead
          else
            memmove
              (memmove buffer 0 cb._buffer cb._iConsumer
                bytesAvailableBetweeniConsumerAndEndOfBuffer)
              bytesAvailableBetweeniConsumerAndEndOfBuffer cb._buffer 0
              (totalBytesToRead - bytesAvailableBetweeniConsumerAndEndOfBuffer)
      let cb1 : CircularBuffer := { cb with _size := cb._size - totalBytesToRead }
      let cb2 : CircularBuffer :=
        { cb1 with _iConsumer := cb1._updateIndex cb1._iConsumer totalBytesToRead }
      { ok := true, cb := cb2, buffer := some out, bytesRead := totalBytesToRead }

/-- The member `void clear()`. -/
def clear (cb : CircularBuffer) : CircularBuffer :=
  { cb with _size := 0, _iProducer := 0, _iConsumer := 0 }

/-! Specification vocabulary. -/

/-- The first `n` bytes of a region, as a list. -/
def bytesOf (m : Mem) (n : Int) : List Byte :=
  (List.range n.toNat).map (fun (i : Nat) => m (i : Int))

/-- The region holding the bytes of `l` at offsets `0 .. l.length - 1` (zero elsewhere). -/
def memOfList (l : List Byte) : Mem :=
  fun i => if 0 ≤ i then l.getD i.toNat 0 else 0

/-- The logical contents: the `_size` bytes starting at `_iConsumer`, wrapping modulo
`_capacity`. -/
def contents (cb : CircularBuffer) : List Byte :=
  (List.range cb._size.toNat).map
    (fun (i : Nat) => cb._buffer ((cb._iConsumer + (i : Int)) % cb._capacity))

/-- A well-formed state: positive capacity, size within the capacity, both cursors valid
indices, and the producer cursor `_size` slots ahead of the consumer cursor. -/
def WellFormed (cb : CircularBuffer) : Prop :=
  0 < cb._capacity ∧ 0 ≤ cb._size ∧ cb._size ≤ cb._capacity ∧
  0 ≤ cb._iProducer ∧ cb._iProducer < cb._capacity ∧
  0 ≤ cb._iConsumer ∧ cb._iConsumer < cb._capacity ∧
  cb._iProducer = (cb._iConsumer + cb._size) % cb._capacity

instance (cb : CircularBuffer) : Decidable (WellFormed cb) := by
  unfold WellFormed; infer_instance

/-- What `read` relies on: positive capacity, size within the capacity, a valid consumer
cursor, and a producer cursor that is ahead of the consumer cursor only when the occupied region
does not wrap.  Every well-formed state is readable, and so is the state left by a `write` on a
well-formed state, also when the producer cursor overflowed. -/
def Readable (cb : CircularBuffer) : Prop :=
  0 < cb._capacity ∧ 0 ≤ cb._size ∧ cb._size ≤ cb._capacity ∧
  0 ≤ cb._iConsumer ∧ cb._iConsumer < cb._capacity ∧
  (cb._iProducer ≤ cb._iConsumer ∨ cb._iConsumer + cb._size ≤ cb._capacity)

/-- One call on the public interface. -/
inductive Call where
  | write (buffer : Option Mem) (bufferSize : Int)
  | read (buffer : Option Mem) (bufferSize : Int)
  | clear

/-- The object after one call. -/
def step (cb : CircularBuffer) : Call → CircularBuffer
  | .write buffer bufferSize => (cb.write buffer bufferSize 0).cb
  | .read buffer bufferSize => (cb.read buffer bufferSize 0).cb
  | .clear => cb.clear

/-- The object after a sequence of calls, in order. -/
def run (cb : CircularBuffer) (calls : List Call) : CircularBuffer :=
  calls.foldl step cb

/-! Sample objects and buffers used to instantiate the theorems below. -/

/-- A caller buffer filled with zero bytes. -/
def zeroMem : Mem := fun _ => 0

/-- The object built by `CircularBuffer cb(3, false)`. -/
def fresh3 : CircularBuffer :=
  { _capacity := 3, _iProducer := 0, _iConsumer := 0, _size := 0,
    _overwriteWhenFull := false, _buffer := fun _ => 0 }

/-- A capacity-3 object whose two unread bytes `9, 7` straddle the end of storage. -/
def straddling : CircularBuffer :=
  { _capacity := 3, _iProducer := 1, _iConsumer := 2, _size := 2,
    _overwriteWhenFull := false, _buffer := memOfList [7, 8, 9] }

/-- A capacity-4 object holding the single unread byte `9` at index 2. -/
def oneAtTwo : CircularBuffer :=
  { _capacity := 4, _iProducer := 3, _iConsumer := 2, _size := 1,
    _overwriteWhenFull := false, _buffer := memOfList [7, 8, 9, 6] }

/-- An empty capacity-3 object whose cursors both stand at index 2. -/
def emptyAtTwo : CircularBuffer :=
  { _capacity := 3, _iProducer := 2, _iConsumer := 2, _size := 0,
    _overwriteWhenFull := false, _buffer := memOfList [7, 8, 9] }

/-- A full capacity-3 object holding `8, 9, 7`. -/
def fullAtOne : CircularBuffer :=
  { _capacity := 3, _iProducer := 1, _iConsumer := 1, _size := 3,
    _overwriteWhenFull := false, _buffer := memOfList [7, 8, 9] }

/-- The fresh capacity-3 object after `write` of the single byte `9`. -/
def holdingNine : CircularBuffer :=
  (fresh3.write (some (memOfList [9])) 1 0).cb

/-- A short sequence of calls mixing accepted, rejected and oversized requests. -/
def sampleCalls : List Call :=
  [.write (some (memOfList [1, 2])) 2, .read (some zeroMem) 1, .write (some (memOfList [3, 4, 5])) 7,
   .write none 1, .read (some zeroMem) (-1), .clear, .write (some (memOfList [6])) 1]

/-- The object built by `CircularBuffer cb(1, false)`. -/
def fresh1 : CircularBuffer :=
  { _capacity := 1, _iProducer := 0, _iConsumer := 0, _size := 0,
    _overwriteWhenFull := false, _buffer := fun _ => 0 }

/-- The fresh capacity-3 object after `write` of the bytes `1, 2, 3`. -/
def afterWrite123 : CircularBuffer :=
  (fresh3.write (some (memOfList [1, 2, 3])) 3 0).cb

/-- The object `afterWrite123` after a `read` of one byte. -/
def afterRead1 : CircularBuffer :=
  (afterWrite123.read (some zeroMem) 1 0).cb

/-- The object `afterRead1` after `write` of the single byte `4`. -/
def afterWrite4 : CircularBuffer :=
  (afterRead1.write (some (memOfList [4])) 1 0).cb

/-- The single-byte writes of the test harness, one per byte of the list
(`valW = b; cb.write(&valW, sizeof(valW), bytesWritten)`): the log of each call's return flag
and the `size()` observed after it, and the object after the last call. -/
def writeEach (cb : CircularBuffer) : List Byte → List (Bool × Int) × CircularBuffer
  | [] => ([], cb)
  | b :: bs =>
    let r := cb.write (some (memOfList [b])) 1 0
    let rest := writeEach r.cb bs
    ((r.ok, r.cb.size) :: rest.1, rest.2)

/-- The single-byte reads of the test harness, repeated `n` times
(`cb.read(&valR, sizeof(valR), bytesRead)`): the log of each call's return flag and the value of
`valR` after it, and the object after the last call. -/
def readEach (cb : CircularBuffer) (valR : Mem) : Nat → List (Bool × Byte) × CircularBuffer
  | 0 => ([], cb)
  | n + 1 =>
    let r := cb.read (some valR) 1 0
    let valR1 := r.buffer.getD valR
    let rest := readEach r.cb valR1 n
    ((r.ok, valR1 0) :: rest.1, rest.2)

/-! The copy rule in the words of the specification, for comparison with the code. -/

/-- The specification's copy into storage: one copy if the run from the cursor to end-of-storage
holds the whole run, otherwise `capacity - cursor` bytes to the tail of storage and the rest at
offset 0. -/
def specCopyIn (storage : Mem) (capacity cursor : Int) (source : Mem) (count : Int) : Mem :=
  if count ≤ capacity - cursor then
    memmove storage cursor source 0 count
  else
    memmove (memmove storage cursor source 0 (capacity - cursor))
      0 source (capacity - cursor) (count - (capacity - cursor))

/-- The specification's copy out of storage, by the same single-or-split rule relative to
end-of-storage. -/
def specCopyOut (destination : Mem) (capacity cursor : Int) (storage : Mem) (count : Int) : Mem :=
  if count ≤ capacity - cursor then
    memmove destination 0 storage cursor count
  else
    memmove (memmove destination 0 storage cursor (capacity - cursor))
      (capacity - cursor) storage 0 (count - (capacity - cursor))

/-- The specification's `write(sourceBuffer, sourceLength)`: the success flag and the state
afterwards. -/
def specWrite (cb : CircularBuffer) (sourceBuffer : Option Mem) (sourceLength : Int) :
    Bool × CircularBuffer :=
  match sourceBuffer with
  | none => (false, cb)
  | some source =>
    let availableSpace := cb._capacity - cb._size
    let bytesToWrite := min availableSpace sourceLength
    if bytesToWrite ≤ 0 then (false, cb)
    else
      (true,
        { cb with
          _buffer := specCopyIn cb._buffer cb._capacity cb._iProducer source bytesToWrite,
          _iProducer := (cb._iProducer + bytesToWrite) % cb._capacity,
          _size := cb._size + bytesToWrite })

/-- The specification's `read(destinationBuffer, destinationCapacity)`: the success flag, the
state afterwards and the destination afterwards. -/
def specRead (cb : CircularBuffer) (destinationBuffer : Option Mem) (destinationCapacity : Int) :
    Bool × CircularBuffer × Option Mem :=
  match destinationBuffer with
  | none => (false, cb, none)
  | some destination =>
    let bytesToRead := min cb._size destinationCapacity
    if bytesToRead ≤ 0 then (false, cb, some destination)
    else
      (true,
        { cb with
          _iConsumer := (cb._iConsumer + bytesToRead) % cb._capacity,
          _size := cb._size - bytesToRead },
        some (specCopyOut destination cb._capacity cb._iConsumer cb._buffer bytesToRead))

/-! The `memmove` calls of `write` and `read`, as data. -/

/-- One `memmove` call between the storage and the caller's buffer: the offset into the storage,
the offset into the caller's buffer, and the byte count. -/
structure Copy where
  storageOffset : Int
  callerOffset : Int
  count : Int

/-- The `memmove` calls a call of `write` performs, in order, branch by branch as in the
source. -/
def writeCopies (cb : CircularBuffer) (buffer : Option Mem) (bufferSize : Int) : List Copy :=
  match buffer with
  | none => []
  | some _ =>
    let totalBytesToWrite := min cb._availableSpace bufferSize
    if totalBytesToWrite ≤ 0 then []
    else if cb._iProducer < cb._iConsumer then
      [{ storageOffset := cb._iProducer, callerOffset := 0, count := totalBytesToWrite }]
    else
      let bytesAvailableBetweeniProducerAndEndOfBuffer := cb._capacity - cb._iProducer
      if bytesAvailableBetweeniProducerAndEndOfBuffer ≥ totalBytesToWrite then
        [{ storageOffset := cb._iProducer, callerOffset := 0, count := totalBytesToWrite }]
      else
        [{ storageOffset := cb._iProducer, callerOffset := 0,
           count := bytesAvailableBetweeniProducerAndEndOfBuffer },
         { storageOffset := 0, callerOffset := bytesAvailableBetweeniProducerAndEndOfBuffer,
           count := totalBytesToWrite - bytesAvailableBetweeniProducerAndEndOfBuffer }]

/-- The `memmove` calls a call of `read` performs, in order, branch by branch as in the
source. -/
def readCopies (cb : CircularBuffer) (buffer : Option Mem) (bufferSize : Int) : List Copy :=
  match buffer with
  | none => []
  | some _ =>
    let totalBytesToRead := min cb._size bufferSize
    if totalBytesToRead ≤ 0 then []
    else if cb._iConsumer < cb._iProducer then
      [{ storageOffset := cb._iConsumer, callerOffset := 0, count := totalBytesToRead }]
    else
      let bytesAvailableBetweeniConsumerAndEndOfBuffer := cb._capacity - cb._iConsumer
      if totalBytesToRead ≤ bytesAvailableBetweeniConsumerAndEndOfBuffer then
        [{ storageOffset := cb._iConsumer, callerOffset := 0, count := totalBytesToRead }]
      else
        [{ storageOffset := cb._iConsumer, callerOffset := 0,
           count := bytesAvailableBetweeniConsumerAndEndOfBuffer },
         { storageOffset := 0, callerOffset := bytesAvailableBetweeniConsumerAndEndOfBuffer,
           count := totalBytesToRead - bytesAvailableBetweeniConsumerAndEndOfBuffer }]

/-- The storage after the copy `c` from the caller's buffer. -/
def copyIn (caller : Mem) (storage : Mem) (c : Copy) : Mem :=
  memmove storage c.storageOffset caller c.callerOffset c.count

/-- The caller's buffer after the copy `c` from the storage. -/
def copyOut (storage : Mem) (caller : Mem) (c : Copy) : Mem :=
  memmove caller c.callerOffset storage c.storageOffset c.count

/-- The fresh capacity-3 object after three single-byte writes of `1`, `2`, `3`. -/
def threeSingles : CircularBuffer :=
  (writeEach fresh3 [1, 2, 3]).2

/-! Objects of large capacity, where `index += bytes` leaves the `int` range. -/

/-- The object built by `CircularBuffer cb(1600000000, false)`. -/
def fresh1600m : CircularBuffer :=
  { _capacity := 1600000000, _iProducer := 0, _iConsumer := 0, _size := 0,
    _overwriteWhenFull := false, _buffer := fun _ => 0 }

/-- The calls `write` of 1500000000 bytes, `read` of 1500000000 bytes, which leave an empty
buffer with both cursors at index 1500000000. -/
def roundTrip1500m : List Call :=
  [.write (some zeroMem) 1500000000, .read (some zeroMem) 1500000000]

/-- The empty capacity-1600000000 object with both cursors at index 1500000000, reached from
construction by `roundTrip1500m`. -/
def emptyAt1500m : CircularBuffer :=
  run fresh1600m roundTrip1500m

/-- The object built by `CircularBuffer cb(2147483647, false)`. -/
def freshIntMax : CircularBuffer :=
  { _capacity := 2147483647, _iProducer := 0, _iConsumer := 0, _size := 0,
    _overwriteWhenFull := false, _buffer := fun _ => 0 }

/-- The calls `write` of 2147483647 bytes whose last byte is `11`, `read` of 2147483646 bytes,
`write` of the two bytes `22, 33`. -/
def callsToIntMax : List Call :=
  [.write (some (fun i => if i = 2147483646 then 11 else 0)) 2147483647,
   .read (some zeroMem) 2147483646,
   .write (some (memOfList [22, 33])) 2]

/-- The capacity-2147483647 object holding `11, 22, 33` from index 2147483646 on (consumer
cursor 2147483646, producer cursor 2), reached from construction by `callsToIntMax`. -/
def nearIntMax : CircularBuffer :=
  run freshIntMax callsToIntMax

/-! Arithmetic and list helpers. -/

theorem emod_wrap {x c : Int} (h0 : 0 ≤ x) (h1 : x < 2 * c) :
    x % c = if x < c then x else x - c := by
  split
  · exact Int.emod_eq_of_lt h0 (by assumption)
  · have h := Int.add_emod_self (a := x - c) (b := c)
    rw [show x - c + c = x by omega] at h
    rw [h, Int.emod_eq_of_lt] <;> omega

theorem emod_shift {x c : Int} (y : Int) (h : y = x ∨ y = x - c) : y % c = x % c := by
  rcases h with h | h
  · rw [h]
  · rw [h]
    have h2 := Int.add_emod_self (a := x - c) (b := c)
    rw [show x - c + c = x by omega] at h2
    exact h2.symm

theorem updateIndex_of_fits (cb : CircularBuffer) (index bytes : Int)
    (hcap : 0 < cb._capacity) (h0 : 0 ≤ index) (hfit : index + bytes ≤ 2147483647) :
    cb._updateIndex index bytes =
      if index + bytes ≥ cb._capacity then index + bytes - cb._capacity else index + bytes := by
  simp only [_updateIndex, intAdd, intSub, wrapInt, INT_MAX, INT_MIN]
  split_ifs <;> omega

theorem updateIndex_cases (cb : CircularBuffer) (index bytes : Int)
    (hcap : 0 < cb._capacity) (h0 : 0 ≤ index) (hi : index < cb._capacity) (hb0 : 0 ≤ bytes) :
    cb._updateIndex index bytes =
        (if index + bytes ≥ cb._capacity then index + bytes - cb._capacity else index + bytes) ∨
      cb._updateIndex index bytes < 0 := by
  simp only [_updateIndex, intAdd, intSub, wrapInt, INT_MAX, INT_MIN]
  split_ifs <;> omega

theorem read_eq_of_pos (cb : CircularBuffer) (dst : Mem) (k bytesRead : Int)
    (hk : 0 < min cb._size k) :
    cb.read (some dst) k bytesRead =
      { ok := true,
        cb := { cb with _size := cb._size - min cb._size k,
                        _iConsumer := cb._updateIndex cb._iConsumer (min cb._size k) },
        buffer := some
          (if cb._iConsumer < cb._iProducer then
            memmove dst 0 cb._buffer cb._iConsumer (min cb._size k)
          else if min cb._size k ≤ cb._capacity - cb._iConsumer then
            memmove dst 0 cb._buffer cb._iConsumer (min cb._size k)
          else
            memmove (memmove dst 0 cb._buffer cb._iConsumer (cb._capacity - cb._iConsumer))
              (cb._capacity - cb._iConsumer) cb._buffer 0
              (min cb._size k - (cb._capacity - cb._iConsumer))),
        bytesRead := min cb._size k } := by
  have h : ¬ (min cb._size k ≤ 0) := not_le.mpr hk
  simp only [read, h, if_false, _updateIndex]

theorem wellFormed_producer (cb : CircularBuffer) (h : WellFormed cb) :
    cb._iProducer = if cb._iConsumer + cb._size < cb._capacity then cb._iConsumer + cb._size
      else cb._iConsumer + cb._size - cb._capacity := by
  obtain ⟨hc, hs0, hs1, _, _, hc0, hc1, hp⟩ := h
  rw [hp]
  exact emod_wrap (by omega) (by omega)

theorem readable_of_wellFormed (cb : CircularBuffer) (hwf : WellFormed cb) : Readable cb := by
  have hp := wellFormed_producer cb hwf
  obtain ⟨hc, hs0, hs1, hp0, hp1, hc0, hc1, _⟩ := hwf
  refine ⟨hc, hs0, hs1, hc0, hc1, ?_⟩
  split_ifs at hp <;> omega

theorem read_out_at (cb : CircularBuffer) (dst : Mem) (k bytesRead : Int)
    (hrd : Readable cb) (hk : 0 < min cb._size k) (i : Int) (hi0 : 0 ≤ i)
    (hi : i < min cb._size k) (out : Mem)
    (hout : (cb.read (some dst) k bytesRead).buffer = some out) :
    out i = cb._buffer ((cb._iConsumer + i) % cb._capacity) := by
  obtain ⟨hc, hs0, hs1, hc0, hc1, hp⟩ := hrd
  rw [read_eq_of_pos cb dst k bytesRead hk] at hout
  simp only [Option.some.injEq] at hout
  subst hout
  have hr : min cb._size k ≤ cb._size := min_le_left _ _
  rw [emod_wrap (by omega) (by omega)]
  generalize min cb._size k = r at *
  split_ifs <;> simp only [memmove] <;> split_ifs <;>
    first
      | (exfalso; omega)
      | (congr 1; omega)

theorem take_map_range {α : Type} (f : Nat → α) (m n : Nat) (h : m ≤ n) :
    ((List.range n).map f).take m = (List.range m).map f := by
  apply List.ext_getElem
  · simp [h]
  · intro i h1 h2
    simp

theorem drop_map_range {α : Type} (f : Nat → α) (m n : Nat) :
    ((List.range n).map f).drop m = (List.range (n - m)).map (fun j => f (m + j)) := by
  apply List.ext_getElem
  · simp
  · intro i h1 h2
    simp

theorem append_map_range {α : Type} (f : Nat → α) (m n : Nat) :
    (List.range (m + n)).map f = (List.range m).map f ++ (List.range n).map (fun j => f (m + j)) := by
  rw [List.range_add, List.map_append, List.map_map]
  rfl

theorem read_out_frame (cb : CircularBuffer) (dst : Mem) (k bytesRead : Int)
    (hrd : Readable cb) (hk : 0 < min cb._size k) (i : Int)
    (hi : i < 0 ∨ min cb._size k ≤ i) (out : Mem)
    (hout : (cb.read (some dst) k bytesRead).buffer = some out) :
    out i = dst i := by
  obtain ⟨hc, hs0, hs1, hc0, hc1, hp⟩ := hrd
  rw [read_eq_of_pos cb dst k bytesRead hk] at hout
  simp only [Option.some.injEq] at hout
  subst hout
  have hr : min cb._size k ≤ cb._size := min_le_left _ _
  generalize min cb._size k = r at *
  split_ifs <;> simp only [memmove] <;> split_ifs <;>
    first
      | (exfalso; omega)
      | rfl

theorem read_bytes (cb : CircularBuffer) (dst : Mem) (k bytesRead : Int)
    (hrd : Readable cb) (hk : 0 < min cb._size k) (out : Mem)
    (hout : (cb.read (some dst) k bytesRead).buffer = some out) :
    bytesOf out (min cb._size k) = (contents cb).take (min cb._size k).toNat := by
  have hr : min cb._size k ≤ cb._size := min_le_left _ _
  unfold bytesOf contents
  rw [take_map_range _ _ _ (by omega)]
  apply List.map_congr_left
  intro i hi
  rw [List.mem_range] at hi
  exact read_out_at cb dst k bytesRead hrd hk i (by omega) (by omega) out hout

theorem read_contents (cb : CircularBuffer) (dst : Mem) (k bytesRead : Int)
    (hcap : 0 < cb._capacity) (hc0 : 0 ≤ cb._iConsumer)
    (hfit : cb._iConsumer + min cb._size k ≤ 2147483647) (hk : 0 < min cb._size k) :
    contents (cb.read (some dst) k bytesRead).cb = (contents cb).drop (min cb._size k).toNat := by
  have hr : min cb._size k ≤ cb._size := min_le_left _ _
  have hidx := updateIndex_of_fits cb cb._iConsumer (min cb._size k) hcap hc0 hfit
  rw [read_eq_of_pos cb dst k bytesRead hk]
  unfold contents
  rw [drop_map_range]
  simp only
  rw [show (cb._size - min cb._size k).toNat = cb._size.toNat - (min cb._size k).toNat by omega]
  apply List.map_congr_left
  intro j _
  congr 1
  apply emod_shift
  rw [hidx]
  split_ifs <;> [right; left] <;> push_cast <;> omega

theorem read_buffer_some (cb : CircularBuffer) (dst : Mem) (k bytesRead : Int)
    (hk : 0 < min cb._size k) :
    ∃ out, (cb.read (some dst) k bytesRead).buffer = some out := by
  rw [read_eq_of_pos cb dst k bytesRead hk]
  exact ⟨_, rfl⟩

/-- C1, as amended. On a well-formed state, a read into a valid destination of capacity `k`
with `min(size, k) > 0` returns true and delivers exactly the first `min(size, k)` bytes of the
logical contents in order (the rest of the destination keeps its bytes), whether or not the run
straddles the end of storage; and when `consumer + min(size, k) <= INT_MAX`, as it always is
for a capacity of at most `2^30`, it leaves a state whose logical contents are the old contents
with those bytes dropped. -/
theorem read_fifo (cb : CircularBuffer) (dst : Mem) (k bytesRead : Int)
    (hwf : WellFormed cb) (hk : 0 < min cb._size k) :
    (cb.read (some dst) k bytesRead).ok = true ∧
    (∃ out, (cb.read (some dst) k bytesRead).buffer = some out ∧
      bytesOf out (min cb._size k) = (contents cb).take (min cb._size k).toNat ∧
      ∀ i : Int, i < 0 ∨ min cb._size k ≤ i → out i = dst i) ∧
    (cb._iConsumer + min cb._size k ≤ 2147483647 →
      contents (cb.read (some dst) k bytesRead).cb =
        (contents cb).drop (min cb._size k).toNat) ∧
    (cb._capacity ≤ 1073741824 → cb._iConsumer + min cb._size k ≤ 2147483647) := by
  have hrd := readable_of_wellFormed cb hwf
  obtain ⟨out, hout⟩ := read_buffer_some cb dst k bytesRead hk
  refine ⟨?_, ⟨out, hout, ?_, ?_⟩, ?_, ?_⟩
  · rw [read_eq_of_pos cb dst k bytesRead hk]
  · exact read_bytes cb dst k bytesRead hrd hk out hout
  · intro i hi
    exact read_out_frame cb dst k bytesRead hrd hk i hi out hout
  · intro hfit
    exact read_contents cb dst k bytesRead hwf.1 hwf.2.2.2.2.2.1 hfit hk
  · intro hsmall
    obtain ⟨hc, hs0, hs1, hp0, hp1, hc0, hc1, _⟩ := hwf
    have hr : min cb._size k ≤ cb._size := min_le_left _ _
    omega

theorem write_eq_of_pos (cb : CircularBuffer) (src : Mem) (n bytesWritten : Int)
    (hn : 0 < min (cb._capacity - cb._size) n) :
    cb.write (some src) n bytesWritten =
      { ok := true,
        cb := { cb with
                _buffer :=
                  (if cb._iProducer < cb._iConsumer then
                    memmove cb._buffer cb._iProducer src 0 (min (cb._capacity - cb._size) n)
                  else if cb._capacity - cb._iProducer ≥ min (cb._capacity - cb._size) n then
                    memmove cb._buffer cb._iProducer src 0 (min (cb._capacity - cb._size) n)
                  else
                    memmove
                      (memmove cb._buffer cb._iProducer src 0 (cb._capacity - cb._iProducer))
                      0 src (cb._capacity - cb._iProducer)
                      (min (cb._capacity - cb._size) n - (cb._capacity - cb._iProducer))),
                _size := cb._size + min (cb._capacity - cb._size) n,
                _iProducer := cb._updateIndex cb._iProducer (min (cb._capacity - cb._size) n) },
        bytesWritten := min (cb._capacity - cb._size) n } := by
  have h : ¬ (min (cb._capacity - cb._size) n ≤ 0) := not_le.mpr hn
  simp only [write, _availableSpace, h, if_false, _updateIndex]

theorem write_storage_at (cb : CircularBuffer) (src : Mem) (n bytesWritten : Int)
    (hwf : WellFormed cb) (hn : 0 < min (cb._capacity - cb._size) n) (i : Int) (hi0 : 0 ≤ i)
    (hi : i < cb._size + min (cb._capacity - cb._size) n) :
    (cb.write (some src) n bytesWritten).cb._buffer ((cb._iConsumer + i) % cb._capacity) =
      if i < cb._size then cb._buffer ((cb._iConsumer + i) % cb._capacity)
      else src (i - cb._size) := by
  have hp := wellFormed_producer cb hwf
  obtain ⟨hc, hs0, hs1, hp0, hp1, hc0, hc1, _⟩ := hwf
  rw [write_eq_of_pos cb src n bytesWritten hn]
  have hw : min (cb._capacity - cb._size) n ≤ cb._capacity - cb._size := min_le_left _ _
  rw [emod_wrap (by omega) (by omega)]
  generalize min (cb._capacity - cb._size) n = w at *
  simp only
  split_ifs at hp ⊢ <;> simp only [memmove] <;> split_ifs <;>
    first
      | (exfalso; omega)
      | rfl
      | (congr 1; omega)

theorem write_contents (cb : CircularBuffer) (src : Mem) (n bytesWritten : Int)
    (hwf : WellFormed cb) (hn : 0 < min (cb._capacity - cb._size) n) :
    contents (cb.write (some src) n bytesWritten).cb =
      contents cb ++ bytesOf src (min (cb._capacity - cb._size) n) := by
  have e := write_eq_of_pos cb src n bytesWritten hn
  have hs : (cb.write (some src) n bytesWritten).cb._size =
      cb._size + min (cb._capacity - cb._size) n := by rw [e]
  have hc : (cb.write (some src) n bytesWritten).cb._iConsumer = cb._iConsumer := by rw [e]
  have hcap : (cb.write (some src) n bytesWritten).cb._capacity = cb._capacity := by rw [e]
  have hat := write_storage_at cb src n bytesWritten hwf hn
  obtain ⟨_, hs0, _, _, _, _, _, _⟩ := hwf
  unfold contents bytesOf
  rw [hs, hc, hcap,
    show (cb._size + min (cb._capacity - cb._size) n).toNat =
      cb._size.toNat + (min (cb._capacity - cb._size) n).toNat by omega,
    append_map_range]
  congr 1
  · apply List.map_congr_left
    intro i hi
    rw [List.mem_range] at hi
    rw [hat i (by omega) (by omega), if_pos (by omega)]
  · apply List.map_congr_left
    intro j hj
    rw [List.mem_range] at hj
    rw [hat _ (by omega) (by omega), if_neg (by omega)]
    congr 1
    omega

theorem bytesOf_memOfList (l : List Byte) (w : Int) (hw : w ≤ l.length) :
    bytesOf (memOfList l) w = l.take w.toNat := by
  unfold bytesOf memOfList
  apply List.ext_getElem
  · simp; omega
  · intro i h1 h2
    simp at h1 h2 ⊢
    rw [List.getElem?_eq_getElem h2.2]
    rfl

/-- C2. On a well-formed state, writing a source byte sequence `src` with
`w = min(capacity - size, length src) > 0` returns true, and the logical contents afterwards are
the old contents followed by the first `w` bytes of `src`; every slot of the old occupied region
still holds the byte it held before. -/
theorem write_appends (cb : CircularBuffer) (src : List Byte) (bytesWritten : Int)
    (hwf : WellFormed cb) (hw : 0 < min (cb._capacity - cb._size) src.length) :
    (cb.write (some (memOfList src)) src.length bytesWritten).ok = true ∧
    contents (cb.write (some (memOfList src)) src.length bytesWritten).cb =
      contents cb ++ src.take (min (cb._capacity - cb._size) src.length).toNat ∧
    ∀ i : Int, 0 ≤ i → i < cb._size →
      (cb.write (some (memOfList src)) src.length bytesWritten).cb._buffer
          ((cb._iConsumer + i) % cb._capacity) =
        cb._buffer ((cb._iConsumer + i) % cb._capacity) := by
  refine ⟨by rw [write_eq_of_pos cb _ _ bytesWritten hw], ?_, ?_⟩
  · rw [write_contents cb _ _ bytesWritten hwf hw, bytesOf_memOfList _ _ (min_le_right _ _)]
  · intro i hi0 hi
    rw [write_storage_at cb _ _ bytesWritten hwf hw i hi0 (by omega), if_pos hi]

theorem write_eq_of_nonpos (cb : CircularBuffer) (src : Mem) (n bytesWritten : Int)
    (hn : min (cb._capacity - cb._size) n ≤ 0) :
    cb.write (some src) n bytesWritten = { ok := false, cb := cb, bytesWritten := bytesWritten } := by
  simp only [write, _availableSpace, hn, if_true]

theorem read_eq_of_nonpos (cb : CircularBuffer) (dst : Mem) (k bytesRead : Int)
    (hk : min cb._size k ≤ 0) :
    cb.read (some dst) k bytesRead =
      { ok := false, cb := cb, buffer := some dst, bytesRead := bytesRead } := by
  simp only [read, hk, if_true]

theorem wellFormed_write_of_fits (cb : CircularBuffer) (buffer : Option Mem)
    (n bytesWritten : Int) (hwf : WellFormed cb)
    (hfit : cb._iProducer + min (cb._capacity - cb._size) n ≤ 2147483647) :
    WellFormed (cb.write buffer n bytesWritten).cb := by
  cases buffer with
  | none => exact hwf
  | some src =>
    by_cases hn : min (cb._capacity - cb._size) n ≤ 0
    · rw [write_eq_of_nonpos cb src n bytesWritten hn]; exact hwf
    · have hn : 0 < min (cb._capacity - cb._size) n := not_le.mp hn
      rw [write_eq_of_pos cb src n bytesWritten hn]
      have hp := wellFormed_producer cb hwf
      obtain ⟨hc, hs0, hs1, hp0, hp1, hc0, hc1, _⟩ := hwf
      have hidx := updateIndex_of_fits cb cb._iProducer (min (cb._capacity - cb._size) n)
        hc hp0 hfit
      have hw : min (cb._capacity - cb._size) n ≤ cb._capacity - cb._size := min_le_left _ _
      generalize min (cb._capacity - cb._size) n = w at *
      unfold WellFormed
      simp only
      rw [emod_wrap (by omega) (by omega), hidx]
      split_ifs at hp ⊢ <;> omega

theorem wellFormed_read_of_fits (cb : CircularBuffer) (buffer : Option Mem)
    (k bytesRead : Int) (hwf : WellFormed cb)
    (hfit : cb._iConsumer + min cb._size k ≤ 2147483647) :
    WellFormed (cb.read buffer k bytesRead).cb := by
  cases buffer with
  | none => exact hwf
  | some dst =>
    by_cases hk : min cb._size k ≤ 0
    · rw [read_eq_of_nonpos cb dst k bytesRead hk]; exact hwf
    · have hk : 0 < min cb._size k := not_le.mp hk
      rw [read_eq_of_pos cb dst k bytesRead hk]
      have hp := wellFormed_producer cb hwf
      obtain ⟨hc, hs0, hs1, hp0, hp1, hc0, hc1, _⟩ := hwf
      have hidx := updateIndex_of_fits cb cb._iConsumer (min cb._size k) hc hc0 hfit
      have hr : min cb._size k ≤ cb._size := min_le_left _ _
      generalize min cb._size k = r at *
      unfold WellFormed
      simp only
      rw [hidx]
      split_ifs at hp ⊢ <;> rw [emod_wrap (by omega) (by omega)] <;> split_ifs <;> omega

theorem readable_write (cb : CircularBuffer) (buffer : Option Mem) (n bytesWritten : Int)
    (hwf : WellFormed cb) : Readable (cb.write buffer n bytesWritten).cb := by
  cases buffer with
  | none => exact readable_of_wellFormed cb hwf
  | some src =>
    by_cases hn : min (cb._capacity - cb._size) n ≤ 0
    · rw [write_eq_of_nonpos cb src n bytesWritten hn]; exact readable_of_wellFormed cb hwf
    · have hn : 0 < min (cb._capacity - cb._size) n := not_le.mp hn
      rw [write_eq_of_pos cb src n bytesWritten hn]
      have hp := wellFormed_producer cb hwf
      obtain ⟨hc, hs0, hs1, hp0, hp1, hc0, hc1, _⟩ := hwf
      have hw : min (cb._capacity - cb._size) n ≤ cb._capacity - cb._size := min_le_left _ _
      have hidx := updateIndex_cases cb cb._iProducer (min (cb._capacity - cb._size) n)
        hc hp0 hp1 (by omega)
      generalize min (cb._capacity - cb._size) n = w at *
      unfold Readable
      simp only
      refine ⟨hc, by omega, by omega, hc0, hc1, ?_⟩
      rcases hidx with hidx | hidx
      · rw [hidx]
        split_ifs at hp ⊢ <;> omega
      · left; omega

theorem wellFormed_clear (cb : CircularBuffer) (hwf : WellFormed cb) : WellFormed cb.clear := by
  obtain ⟨hc, _⟩ := hwf
  unfold WellFormed clear
  simp only
  rw [emod_wrap (by omega) (by omega)]
  simp [hc, le_of_lt hc]

theorem wellFormed_step_small (cb : CircularBuffer) (c : Call) (hwf : WellFormed cb)
    (hsmall : cb._capacity ≤ 1073741824) : WellFormed (step cb c) := by
  have h := hwf
  obtain ⟨hc, hs0, hs1, hp0, hp1, hc0, hc1, _⟩ := h
  cases c with
  | write buffer n =>
    apply wellFormed_write_of_fits cb buffer n 0 hwf
    have : min (cb._capacity - cb._size) n ≤ cb._capacity - cb._size := min_le_left _ _
    omega
  | read buffer k =>
    apply wellFormed_read_of_fits cb buffer k 0 hwf
    have : min cb._size k ≤ cb._size := min_le_left _ _
    omega
  | clear => exact wellFormed_clear cb hwf

theorem capacity_write (cb : CircularBuffer) (buffer : Option Mem) (n bytesWritten : Int) :
    (cb.write buffer n bytesWritten).cb._capacity = cb._capacity := by
  cases buffer with
  | none => rfl
  | some src =>
    by_cases hn : min (cb._capacity - cb._size) n ≤ 0
    · rw [write_eq_of_nonpos cb src n bytesWritten hn]
    · rw [write_eq_of_pos cb src n bytesWritten (not_le.mp hn)]

theorem capacity_read (cb : CircularBuffer) (buffer : Option Mem) (k bytesRead : Int) :
    (cb.read buffer k bytesRead).cb._capacity = cb._capacity := by
  cases buffer with
  | none => rfl
  | some dst =>
    by_cases hk : min cb._size k ≤ 0
    · rw [read_eq_of_nonpos cb dst k bytesRead hk]
    · rw [read_eq_of_pos cb dst k bytesRead (not_le.mp hk)]

theorem capacity_step (cb : CircularBuffer) (c : Call) :
    (step cb c)._capacity = cb._capacity := by
  cases c with
  | write buffer n => exact capacity_write cb buffer n 0
  | read buffer k => exact capacity_read cb buffer k 0
  | clear => rfl

theorem capacity_run (calls : List Call) :
    ∀ cb : CircularBuffer, (run cb calls)._capacity = cb._capacity := by
  induction calls with
  | nil => intro cb; rfl
  | cons c cs ih => intro cb; exact (ih (step cb c)).trans (capacity_step cb c)

theorem wellFormed_construct (C : Int) (hC : 0 < C) (cb : CircularBuffer)
    (h : construct C false = some cb) : WellFormed cb ∧ cb._capacity = C := by
  simp only [construct, if_true, Option.some.injEq] at h
  subst h
  unfold WellFormed
  simp [hC, le_of_lt hC]

/-- C7, as amended. On a well-formed state, a write from a valid source with
`w = min(capacity - size, n) > 0` returns true, sets `bytesWritten` to `w`, increases the size by
exactly `w`, leaves the consumer cursor and the capacity unchanged, and, when
`producer + w <= INT_MAX`, as it always is for a capacity of at most `2^30`, moves the producer
cursor to `(producer + w) mod capacity`. -/
theorem write_scalars (cb : CircularBuffer) (src : Mem) (n bytesWritten : Int)
    (hwf : WellFormed cb) (hn : 0 < min (cb._capacity - cb._size) n) :
    (cb.write (some src) n bytesWritten).ok = true ∧
    (cb.write (some src) n bytesWritten).bytesWritten = min (cb._capacity - cb._size) n ∧
    (cb.write (some src) n bytesWritten).cb._size =
      cb._size + min (cb._capacity - cb._size) n ∧
    (cb._iProducer + min (cb._capacity - cb._size) n ≤ 2147483647 →
      (cb.write (some src) n bytesWritten).cb._iProducer =
        (cb._iProducer + min (cb._capacity - cb._size) n) % cb._capacity) ∧
    (cb._capacity ≤ 1073741824 →
      cb._iProducer + min (cb._capacity - cb._size) n ≤ 2147483647) ∧
    (cb.write (some src) n bytesWritten).cb._iConsumer = cb._iConsumer ∧
    (cb.write (some src) n bytesWritten).cb._capacity = cb._capacity := by
  rw [write_eq_of_pos cb src n bytesWritten hn]
  obtain ⟨hc, hs0, hs1, hp0, hp1, hc0, hc1, _⟩ := hwf
  have hw : min (cb._capacity - cb._size) n ≤ cb._capacity - cb._size := min_le_left _ _
  refine ⟨rfl, rfl, rfl, ?_, ?_, rfl, rfl⟩
  · intro hfit
    have hidx := updateIndex_of_fits cb cb._iProducer (min (cb._capacity - cb._size) n)
      hc hp0 hfit
    generalize min (cb._capacity - cb._size) n = w at *
    simp only
    rw [emod_wrap (by omega) (by omega), hidx]
    split_ifs <;> omega
  · intro hsmall
    omega

/-- C8. A write returns false exactly when the source pointer is null or
`min(capacity - size, sourceLength) <= 0`; on a well-formed state the latter means the buffer is
full or `sourceLength <= 0`; and whenever write returns false the object (size, both cursors,
every storage byte) is the same as before the call. -/
theorem write_fails_iff (cb : CircularBuffer) (buffer : Option Mem) (n bytesWritten : Int) :
    ((cb.write buffer n bytesWritten).ok = false ↔
      (buffer = none ∨ min (cb._capacity - cb._size) n ≤ 0)) ∧
    (WellFormed cb →
      (min (cb._capacity - cb._size) n ≤ 0 ↔ (cb._size = cb._capacity ∨ n ≤ 0))) ∧
    ((cb.write buffer n bytesWritten).ok = false →
      (cb.write buffer n bytesWritten).cb = cb) := by
  refine ⟨?_, ?_, ?_⟩
  · cases buffer with
    | none => simp [write]
    | some src =>
      by_cases hn : min (cb._capacity - cb._size) n ≤ 0
      · rw [write_eq_of_nonpos cb src n bytesWritten hn]; simp [hn]
      · rw [write_eq_of_pos cb src n bytesWritten (not_le.mp hn)]; simp [hn]
  · intro hwf
    obtain ⟨_, _, hs1, _⟩ := hwf
    rw [min_le_iff]
    constructor
    · rintro (h | h)
      · left; omega
      · right; exact h
    · rintro (h | h)
      · left; omega
      · right; exact h
  · cases buffer with
    | none => intro _; rfl
    | some src =>
      by_cases hn : min (cb._capacity - cb._size) n ≤ 0
      · rw [write_eq_of_nonpos cb src n bytesWritten hn]; intro _; rfl
      · rw [write_eq_of_pos cb src n bytesWritten (not_le.mp hn)]; intro h; simp at h

/-- C9, as amended. On a well-formed state, a read into a valid destination with
`r = min(size, destinationCapacity) > 0` returns true, sets `bytesRead` to `r`, decreases the
size by exactly `r`, leaves the producer cursor, the capacity and every storage byte unchanged,
and, when `consumer + r <= INT_MAX`, as it always is for a capacity of at most `2^30`, moves the
consumer cursor to `(consumer + r) mod capacity`. -/
theorem read_scalars (cb : CircularBuffer) (dst : Mem) (k bytesRead : Int)
    (hwf : WellFormed cb) (hk : 0 < min cb._size k) :
    (cb.read (some dst) k bytesRead).ok = true ∧
    (cb.read (some dst) k bytesRead).bytesRead = min cb._size k ∧
    (cb.read (some dst) k bytesRead).cb._size = cb._size - min cb._size k ∧
    (cb._iConsumer + min cb._size k ≤ 2147483647 →
      (cb.read (some dst) k bytesRead).cb._iConsumer =
        (cb._iConsumer + min cb._size k) % cb._capacity) ∧
    (cb._capacity ≤ 1073741824 → cb._iConsumer + min cb._size k ≤ 2147483647) ∧
    (cb.read (some dst) k bytesRead).cb._iProducer = cb._iProducer ∧
    (cb.read (some dst) k bytesRead).cb._capacity = cb._capacity ∧
    (cb.read (some dst) k bytesRead).cb._buffer = cb._buffer := by
  rw [read_eq_of_pos cb dst k bytesRead hk]
  obtain ⟨hc, hs0, hs1, hp0, hp1, hc0, hc1, _⟩ := hwf
  have hr : min cb._size k ≤ cb._size := min_le_left _ _
  refine ⟨rfl, rfl, rfl, ?_, ?_, rfl, rfl, rfl⟩
  · intro hfit
    have hidx := updateIndex_of_fits cb cb._iConsumer (min cb._size k) hc hc0 hfit
    generalize min cb._size k = r at *
    simp only
    rw [emod_wrap (by omega) (by omega), hidx]
    split_ifs <;> omega
  · intro hsmall
    omega

/-- C10. A read returns false exactly when the destination pointer is null or
`min(size, destinationCapacity) <= 0`; on a well-formed state the latter means the buffer is
empty or `destinationCapacity <= 0`; and whenever read returns false the object (size, both
cursors, storage) is the same as before the call and the destination is left as it was. -/
theorem read_fails_iff (cb : CircularBuffer) (buffer : Option Mem) (k bytesRead : Int) :
    ((cb.read buffer k bytesRead).ok = false ↔ (buffer = none ∨ min cb._size k ≤ 0)) ∧
    (WellFormed cb → (min cb._size k ≤ 0 ↔ (cb._size = 0 ∨ k ≤ 0))) ∧
    ((cb.read buffer k bytesRead).ok = false →
      (cb.read buffer k bytesRead).cb = cb ∧ (cb.read buffer k bytesRead).buffer = buffer) := by
  refine ⟨?_, ?_, ?_⟩
  · cases buffer with
    | none => simp [read]
    | some dst =>
      by_cases hk : min cb._size k ≤ 0
      · rw [read_eq_of_nonpos cb dst k bytesRead hk]; simp [hk]
      · rw [read_eq_of_pos cb dst k bytesRead (not_le.mp hk)]; simp [hk]
  · intro hwf
    obtain ⟨_, hs0, _⟩ := hwf
    rw [min_le_iff]
    constructor
    · rintro (h | h)
      · left; omega
      · right; exact h
    · rintro (h | h)
      · left; omega
      · right; exact h
  · cases buffer with
    | none => intro _; exact ⟨rfl, rfl⟩
    | some dst =>
      by_cases hk : min cb._size k ≤ 0
      · rw [read_eq_of_nonpos cb dst k bytesRead hk]; intro _; exact ⟨rfl, rfl⟩
      · rw [read_eq_of_pos cb dst k bytesRead (not_le.mp hk)]; intro h; simp at h

theorem pos_of_write_ok (cb : CircularBuffer) (src : Mem) (n bytesWritten : Int)
    (h : (cb.write (some src) n bytesWritten).ok = true) :
    0 < min (cb._capacity - cb._size) n := by
  by_contra hn
  rw [write_eq_of_nonpos cb src n bytesWritten (not_lt.mp hn)] at h
  simp at h

theorem pos_of_read_ok (cb : CircularBuffer) (dst : Mem) (k bytesRead : Int)
    (h : (cb.read (some dst) k bytesRead).ok = true) : 0 < min cb._size k := by
  by_contra hk
  rw [read_eq_of_nonpos cb dst k bytesRead (not_lt.mp hk)] at h
  simp at h

theorem contents_of_size_zero (cb : CircularBuffer) (h : cb._size = 0) : contents cb = [] := by
  unfold contents
  rw [h]
  rfl

theorem write_read_bytes (cb : CircularBuffer) (src dst : Mem) (n k bytesWritten bytesRead : Int)
    (hwf : WellFormed cb) (hn : 0 < min (cb._capacity - cb._size) n)
    (hk : 0 < min (cb.write (some src) n bytesWritten).cb._size k) :
    ∃ out, ((cb.write (some src) n bytesWritten).cb.read (some dst) k bytesRead).buffer = some out ∧
      ((cb.write (some src) n bytesWritten).cb.read (some dst) k bytesRead).bytesRead =
        min (cb._size + min (cb._capacity - cb._size) n) k ∧
      bytesOf out (min (cb._size + min (cb._capacity - cb._size) n) k) =
        (contents cb ++ bytesOf src (min (cb._capacity - cb._size) n)).take
          (min (cb._size + min (cb._capacity - cb._size) n) k).toNat := by
  have hs : (cb.write (some src) n bytesWritten).cb._size =
      cb._size + min (cb._capacity - cb._size) n := by
    rw [write_eq_of_pos cb src n bytesWritten hn]
  have hwf1 := readable_write cb (some src) n bytesWritten hwf
  obtain ⟨out, hout⟩ := read_buffer_some (cb.write (some src) n bytesWritten).cb dst k bytesRead hk
  have hbytes := read_bytes (cb.write (some src) n bytesWritten).cb dst k bytesRead hwf1 hk out hout
  refine ⟨out, hout, ?_, ?_⟩
  · rw [read_eq_of_pos _ dst k bytesRead hk, hs]
  · rw [hs, write_contents cb src n bytesWritten hwf hn] at hbytes
    exact hbytes

/-- C3, as amended. After a successful write of `n` bytes into an empty well-formed buffer,
followed immediately by a successful read of `m <= n` bytes, the `m` bytes read equal the
first `m` bytes of the written run, in order, wherever the cursors stand. -/
theorem conservation_on_empty (cb : CircularBuffer) (src dst : Mem)
    (len k bytesWritten bytesRead : Int) (hwf : WellFormed cb) (hempty : cb._size = 0)
    (hw : (cb.write (some src) len bytesWritten).ok = true)
    (hr : ((cb.write (some src) len bytesWritten).cb.read (some dst) k bytesRead).ok = true)
    (_hm : ((cb.write (some src) len bytesWritten).cb.read (some dst) k bytesRead).bytesRead ≤
      (cb.write (some src) len bytesWritten).bytesWritten) :
    ∃ out,
      ((cb.write (some src) len bytesWritten).cb.read (some dst) k bytesRead).buffer = some out ∧
      bytesOf out ((cb.write (some src) len bytesWritten).cb.read (some dst) k bytesRead).bytesRead =
        (bytesOf src (cb.write (some src) len bytesWritten).bytesWritten).take
          ((cb.write (some src) len bytesWritten).cb.read (some dst) k bytesRead).bytesRead.toNat := by
  have hn := pos_of_write_ok cb src len bytesWritten hw
  have hk := pos_of_read_ok _ dst k bytesRead hr
  obtain ⟨out, hout, hcount, hbytes⟩ :=
    write_read_bytes cb src dst len k bytesWritten bytesRead hwf hn hk
  refine ⟨out, hout, ?_⟩
  rw [hcount, hbytes, contents_of_size_zero cb hempty, List.nil_append]
  rw [write_eq_of_pos cb src len bytesWritten hn]

/-- C4. From a well-formed empty state with the cursors at any index, writing an input of length
`w > 0` succeeds with `bytesWritten = size() = min(C, w)`; a following read of length `r > 0`
succeeds with `bytesRead = min(min(C, w), r)`; the bytes read are the first `bytesRead` bytes of
the input; and the buffer is then empty exactly when `r >= min(C, w)`, otherwise
`size() = min(C, w) - bytesRead`. -/
theorem empty_round_trip (cb : CircularBuffer) (src : List Byte) (dst : Mem)
    (r bytesWritten bytesRead : Int) (hwf : WellFormed cb) (hempty : cb._size = 0)
    (hw : 0 < src.length) (hr : 0 < r) :
    (cb.write (some (memOfList src)) src.length bytesWritten).ok = true ∧
    (cb.write (some (memOfList src)) src.length bytesWritten).bytesWritten =
      min cb._capacity src.length ∧
    (cb.write (some (memOfList src)) src.length bytesWritten).cb.size =
      min cb._capacity src.length ∧
    ((cb.write (some (memOfList src)) src.length bytesWritten).cb.read
      (some dst) r bytesRead).ok = true ∧
    ((cb.write (some (memOfList src)) src.length bytesWritten).cb.read
      (some dst) r bytesRead).bytesRead = min (min cb._capacity src.length) r ∧
    (∃ out,
      ((cb.write (some (memOfList src)) src.length bytesWritten).cb.read
        (some dst) r bytesRead).buffer = some out ∧
      bytesOf out (min (min cb._capacity src.length) r) =
        src.take (min (min cb._capacity src.length) r).toNat) ∧
    (((cb.write (some (memOfList src)) src.length bytesWritten).cb.read
      (some dst) r bytesRead).cb.empty = true ↔ r ≥ min cb._capacity src.length) ∧
    (¬ (r ≥ min cb._capacity src.length) →
      ((cb.write (some (memOfList src)) src.length bytesWritten).cb.read
        (some dst) r bytesRead).cb.size =
          min cb._capacity src.length - min (min cb._capacity src.length) r) := by
  have hcap : 0 < cb._capacity := hwf.1
  have hlen : (0 : Int) < (src.length : Int) := by exact_mod_cast hw
  have hn : 0 < min (cb._capacity - cb._size) src.length := by
    rw [hempty, sub_zero]; exact lt_min hcap hlen
  have hs : (cb.write (some (memOfList src)) src.length bytesWritten).cb._size =
      min cb._capacity src.length := by
    rw [write_eq_of_pos cb _ _ bytesWritten hn, hempty]; simp
  have hk : 0 < min (cb.write (some (memOfList src)) src.length bytesWritten).cb._size r := by
    rw [hs]; exact lt_min (lt_min hcap hlen) hr
  obtain ⟨out, hout, hcount, hbytes⟩ :=
    write_read_bytes cb (memOfList src) dst src.length r bytesWritten bytesRead hwf hn hk
  rw [hempty, sub_zero, zero_add] at hcount hbytes
  have hrs := read_eq_of_pos (cb.write (some (memOfList src)) src.length bytesWritten).cb
    dst r bytesRead hk
  refine ⟨?_, ?_, hs, ?_, hcount, ⟨out, hout, ?_⟩, ?_, ?_⟩
  · rw [write_eq_of_pos cb _ _ bytesWritten hn]
  · rw [write_eq_of_pos cb _ _ bytesWritten hn, hempty, sub_zero]
  · rw [hrs]
  · rw [hbytes, contents_of_size_zero cb hempty, List.nil_append,
      bytesOf_memOfList _ _ (min_le_right _ _), List.take_take]
    congr 1
    have h1 : min (min cb._capacity (src.length : Int)) r ≤ min cb._capacity (src.length : Int) :=
      min_le_left _ _
    omega
  · rw [hrs]
    simp only [empty, hs, decide_eq_true_eq]
    constructor
    · intro h
      have : min (min cb._capacity (src.length : Int)) r = min cb._capacity (src.length : Int) := by
        omega
      exact min_eq_left_iff.mp this
    · intro h
      rw [min_eq_left h]; omega
  · intro _
    rw [hrs]
    simp only [size, hs]

theorem construct_some (C : Int) : ∃ cb, construct C false = some cb := ⟨_, rfl⟩

theorem wellFormed_run_small (calls : List Call) :
    ∀ cb : CircularBuffer, WellFormed cb → cb._capacity ≤ 1073741824 →
      WellFormed (run cb calls) := by
  induction calls with
  | nil => intro cb h _; exact h
  | cons c cs ih =>
    intro cb h hsmall
    exact ih (step cb c) (wellFormed_step_small cb c h hsmall)
      (by rw [capacity_step]; exact hsmall)

theorem reachable_wellFormed (C : Int) (hC : 0 < C) (hsmall : C ≤ 1073741824)
    (calls : List Call) (cb : CircularBuffer) (h : construct C false = some cb) :
    WellFormed (run cb calls) ∧ (run cb calls)._capacity = C := by
  obtain ⟨hwf, hcap⟩ := wellFormed_construct C hC cb h
  exact ⟨wellFormed_run_small calls cb hwf (by rw [hcap]; exact hsmall),
    (capacity_run calls cb).trans hcap⟩

/-- C6, as amended. In every state reachable from construction with capacity `0 < C <= 2^30`
by write, read and clear calls, both cursors lie in `[0, C)`, the producer cursor equals
`(consumer + size) mod C`, and the two cursors coincide exactly when the buffer is empty or
full. -/
theorem cursor_invariant (C : Int) (hC : 0 < C) (hsmall : C ≤ 1073741824) (calls : List Call) :
    ∃ cb, construct C false = some cb ∧
      0 ≤ (run cb calls)._iProducer ∧ (run cb calls)._iProducer < C ∧
      0 ≤ (run cb calls)._iConsumer ∧ (run cb calls)._iConsumer < C ∧
      (run cb calls)._iProducer = ((run cb calls)._iConsumer + (run cb calls).size) % C ∧
      ((run cb calls)._iProducer = (run cb calls)._iConsumer ↔
        ((run cb calls).size = 0 ∨ (run cb calls).size = C)) := by
  obtain ⟨cb, h⟩ := construct_some C
  refine ⟨cb, h, ?_⟩
  obtain ⟨hwf, hcap⟩ := reachable_wellFormed C hC hsmall calls cb h
  have hp := wellFormed_producer _ hwf
  obtain ⟨_, hs0, hs1, hp0, hp1, hc0, hc1, hmod⟩ := hwf
  rw [hcap] at hs1 hp1 hc1 hmod hp
  refine ⟨hp0, hp1, hc0, hc1, hmod, ?_⟩
  simp only [size]
  split_ifs at hp <;> constructor <;> intro h' <;> omega

/-- C3, refuted as stated. On the capacity-3 buffer that already holds the byte `9`, a write of
the two bytes `1, 2` succeeds with `bytesWritten = 2`, the immediately following read of one
byte succeeds with `bytesRead = 1 <= 2`, and the byte read is `9`, not the first written byte
`1`. -/
theorem conservation_counterexample :
    construct 3 false = some fresh3 ∧ WellFormed holdingNine ∧
    ((fresh3.write (some (memOfList [9])) 1 0).ok = true ∧
      (fresh3.write (some (memOfList [9])) 1 0).cb = holdingNine) ∧
    (holdingNine.write (some (memOfList [1, 2])) 2 0).ok = true ∧
    (holdingNine.write (some (memOfList [1, 2])) 2 0).bytesWritten = 2 ∧
    ((holdingNine.write (some (memOfList [1, 2])) 2 0).cb.read (some zeroMem) 1 0).ok = true ∧
    ((holdingNine.write (some (memOfList [1, 2])) 2 0).cb.read (some zeroMem) 1 0).bytesRead = 1 ∧
    (((holdingNine.write (some (memOfList [1, 2])) 2 0).cb.read (some zeroMem) 1 0).buffer.map
      (fun out => bytesOf out 1)) = some [9] ∧
    [9] ≠ (bytesOf (memOfList [1, 2]) 2).take 1 ∧
    ¬ ∃ out,
      ((holdingNine.write (some (memOfList [1, 2])) 2 0).cb.read (some zeroMem) 1 0).buffer =
        some out ∧
      bytesOf out ((holdingNine.write (some (memOfList [1, 2])) 2 0).cb.read
          (some zeroMem) 1 0).bytesRead =
        (bytesOf (memOfList [1, 2])
            (holdingNine.write (some (memOfList [1, 2])) 2 0).bytesWritten).take
          ((holdingNine.write (some (memOfList [1, 2])) 2 0).cb.read
            (some zeroMem) 1 0).bytesRead.toNat := by
  have hread : (((holdingNine.write (some (memOfList [1, 2])) 2 0).cb.read
      (some zeroMem) 1 0).buffer.map (fun out => bytesOf out 1)) = some [9] := by decide
  have hm : ((holdingNine.write (some (memOfList [1, 2])) 2 0).cb.read
      (some zeroMem) 1 0).bytesRead = 1 := by decide
  have hn : (holdingNine.write (some (memOfList [1, 2])) 2 0).bytesWritten = 2 := by decide
  refine ⟨rfl, by decide, ⟨by decide, rfl⟩, by decide, hn, by decide, hm, hread, by decide, ?_⟩
  rintro ⟨out, h1, h2⟩
  rw [h1] at hread
  rw [hm, hn] at h2
  simp only [Option.map, Option.some.injEq] at hread
  rw [hread] at h2
  exact absurd h2 (by decide)

/-! Instances of the theorems at concrete objects. -/

/-- C1 as amended, at the straddling capacity-3 object: reading up to 5 bytes delivers `9, 7`
(index 2, then index 0) and leaves the buffer empty. -/
theorem read_fifo_witness :
    WellFormed straddling ∧ 0 < min straddling._size 5 ∧ contents straddling = [9, 7] ∧
    (straddling.read (some zeroMem) 5 0).ok = true ∧
    (∃ out, (straddling.read (some zeroMem) 5 0).buffer = some out ∧
      bytesOf out (min straddling._size 5) =
        (contents straddling).take (min straddling._size 5).toNat ∧
      ∀ i : Int, i < 0 ∨ min straddling._size 5 ≤ i → out i = zeroMem i) ∧
    contents (straddling.read (some zeroMem) 5 0).cb =
      (contents straddling).drop (min straddling._size 5).toNat :=
  ⟨by decide, by decide, by decide,
    (read_fifo straddling zeroMem 5 0 (by decide) (by decide)).1,
    (read_fifo straddling zeroMem 5 0 (by decide) (by decide)).2.1,
    (read_fifo straddling zeroMem 5 0 (by decide) (by decide)).2.2.1 (by decide)⟩

/-- C2 at the capacity-4 object holding `9` at index 2: writing `4, 5, 1` fills indices 3, 0, 1
and the contents become `9, 4, 5, 1`. -/
theorem write_appends_witness :
    WellFormed oneAtTwo ∧ 0 < min (oneAtTwo._capacity - oneAtTwo._size) ([4, 5, 1] : List Byte).length ∧
    (oneAtTwo.write (some (memOfList [4, 5, 1])) ([4, 5, 1] : List Byte).length 0).ok = true ∧
    contents (oneAtTwo.write (some (memOfList [4, 5, 1])) ([4, 5, 1] : List Byte).length 0).cb =
      contents oneAtTwo ++ ([4, 5, 1] : List Byte).take
        (min (oneAtTwo._capacity - oneAtTwo._size) ([4, 5, 1] : List Byte).length).toNat :=
  ⟨by decide, by decide,
    (write_appends oneAtTwo [4, 5, 1] 0 (by decide) (by decide)).1,
    (write_appends oneAtTwo [4, 5, 1] 0 (by decide) (by decide)).2.1⟩

/-- C3 as amended, at the empty capacity-3 object with both cursors at index 2: writing `1, 2`
and reading one byte gives back `1`. -/
theorem conservation_on_empty_witness :
    WellFormed emptyAtTwo ∧ emptyAtTwo._size = 0 ∧
    ∃ out,
      ((emptyAtTwo.write (some (memOfList [1, 2])) 2 0).cb.read (some zeroMem) 1 0).buffer =
        some out ∧
      bytesOf out ((emptyAtTwo.write (some (memOfList [1, 2])) 2 0).cb.read
          (some zeroMem) 1 0).bytesRead =
        (bytesOf (memOfList [1, 2]) (emptyAtTwo.write (some (memOfList [1, 2])) 2 0).bytesWritten).take
          ((emptyAtTwo.write (some (memOfList [1, 2])) 2 0).cb.read
            (some zeroMem) 1 0).bytesRead.toNat :=
  ⟨by decide, by decide,
    conservation_on_empty emptyAtTwo (memOfList [1, 2]) zeroMem 2 1 0 0 (by decide) (by decide)
      (by decide) (by decide) (by decide)⟩

/-- C4 at the empty capacity-3 object with both cursors at index 2: writing four bytes stores
three, and reading two returns the first two and leaves one. -/
theorem empty_round_trip_witness :
    WellFormed emptyAtTwo ∧
    (emptyAtTwo.write (some (memOfList [1, 2, 3, 4])) ([1, 2, 3, 4] : List Byte).length 0).bytesWritten =
      min emptyAtTwo._capacity ([1, 2, 3, 4] : List Byte).length ∧
    ((emptyAtTwo.write (some (memOfList [1, 2, 3, 4])) ([1, 2, 3, 4] : List Byte).length 0).cb.read
      (some zeroMem) 2 0).bytesRead = min (min emptyAtTwo._capacity ([1, 2, 3, 4] : List Byte).length) 2 :=
  ⟨by decide,
    (empty_round_trip emptyAtTwo [1, 2, 3, 4] zeroMem 2 0 0 (by decide) (by decide) (by decide)
      (by decide)).2.1,
    (empty_round_trip emptyAtTwo [1, 2, 3, 4] zeroMem 2 0 0 (by decide) (by decide) (by decide)
      (by decide)).2.2.2.2.1⟩

/-- C6 as amended, at capacity 3 and the sample call sequence. -/
theorem cursor_invariant_witness :
    ∃ cb, construct 3 false = some cb ∧
      0 ≤ (run cb sampleCalls)._iProducer ∧ (run cb sampleCalls)._iProducer < 3 ∧
      0 ≤ (run cb sampleCalls)._iConsumer ∧ (run cb sampleCalls)._iConsumer < 3 ∧
      (run cb sampleCalls)._iProducer =
        ((run cb sampleCalls)._iConsumer + (run cb sampleCalls).size) % 3 ∧
      ((run cb sampleCalls)._iProducer = (run cb sampleCalls)._iConsumer ↔
        ((run cb sampleCalls).size = 0 ∨ (run cb sampleCalls).size = 3)) :=
  cursor_invariant 3 (by decide) (by decide) sampleCalls

/-- C7 as amended, at the capacity-4 object holding one byte: a request of 5 bytes writes 3 and
wraps the producer cursor from 3 to 2. -/
theorem write_scalars_witness :
    WellFormed oneAtTwo ∧ 0 < min (oneAtTwo._capacity - oneAtTwo._size) 5 ∧
    (oneAtTwo.write (some zeroMem) 5 0).bytesWritten = min (oneAtTwo._capacity - oneAtTwo._size) 5 ∧
    (oneAtTwo.write (some zeroMem) 5 0).cb._size =
      oneAtTwo._size + min (oneAtTwo._capacity - oneAtTwo._size) 5 ∧
    (oneAtTwo.write (some zeroMem) 5 0).cb._iProducer =
      (oneAtTwo._iProducer + min (oneAtTwo._capacity - oneAtTwo._size) 5) % oneAtTwo._capacity ∧
    (oneAtTwo.write (some zeroMem) 5 0).cb._iProducer = 2 :=
  ⟨by decide, by decide,
    (write_scalars oneAtTwo zeroMem 5 0 (by decide) (by decide)).2.1,
    (write_scalars oneAtTwo zeroMem 5 0 (by decide) (by decide)).2.2.1,
    (write_scalars oneAtTwo zeroMem 5 0 (by decide) (by decide)).2.2.2.1 (by decide),
    by decide⟩

/-- C8 at the full capacity-3 object: a one-byte write is rejected and the object is unchanged. -/
theorem write_fails_iff_witness :
    WellFormed fullAtOne ∧ (fullAtOne.write (some zeroMem) 1 0).ok = false ∧
    (fullAtOne.write (some zeroMem) 1 0).cb = fullAtOne ∧
    (min (fullAtOne._capacity - fullAtOne._size) 1 ≤ 0 ↔
      (fullAtOne._size = fullAtOne._capacity ∨ (1 : Int) ≤ 0)) :=
  ⟨by decide, by decide,
    (write_fails_iff fullAtOne (some zeroMem) 1 0).2.2 (by decide),
    (write_fails_iff fullAtOne (some zeroMem) 1 0).2.1 (by decide)⟩

/-- C9 as amended, at the full capacity-3 object: a read of up to 4 bytes takes 3 and brings
the consumer cursor back to index 1. -/
theorem read_scalars_witness :
    WellFormed fullAtOne ∧ 0 < min fullAtOne._size 4 ∧
    (fullAtOne.read (some zeroMem) 4 0).bytesRead = min fullAtOne._size 4 ∧
    (fullAtOne.read (some zeroMem) 4 0).cb._size = fullAtOne._size - min fullAtOne._size 4 ∧
    (fullAtOne.read (some zeroMem) 4 0).cb._iConsumer =
      (fullAtOne._iConsumer + min fullAtOne._size 4) % fullAtOne._capacity ∧
    (fullAtOne.read (some zeroMem) 4 0).cb._iConsumer = 1 :=
  ⟨by decide, by decide,
    (read_scalars fullAtOne zeroMem 4 0 (by decide) (by decide)).2.1,
    (read_scalars fullAtOne zeroMem 4 0 (by decide) (by decide)).2.2.1,
    (read_scalars fullAtOne zeroMem 4 0 (by decide) (by decide)).2.2.2.1 (by decide),
    by decide⟩

/-- C10 at the empty capacity-3 object: a read is rejected, and the object and the destination
are unchanged. -/
theorem read_fails_iff_witness :
    WellFormed emptyAtTwo ∧ (emptyAtTwo.read (some zeroMem) 4 0).ok = false ∧
    ((emptyAtTwo.read (some zeroMem) 4 0).cb = emptyAtTwo ∧
      (emptyAtTwo.read (some zeroMem) 4 0).buffer = some zeroMem) ∧
    (min emptyAtTwo._size 4 ≤ 0 ↔ (emptyAtTwo._size = 0 ∨ (4 : Int) ≤ 0)) :=
  ⟨by decide, by decide,
    (read_fails_iff emptyAtTwo (some zeroMem) 4 0).2.2 (by decide),
    (read_fails_iff emptyAtTwo (some zeroMem) 4 0).2.1 (by decide)⟩

/-! Boundary behaviour, clear, and the scenarios of the test harness. -/

theorem read_fails_of_size_zero (cb : CircularBuffer) (buffer : Option Mem) (k bytesRead : Int)
    (h : cb._size = 0) :
    cb.read buffer k bytesRead =
      { ok := false, cb := cb, buffer := buffer, bytesRead := bytesRead } := by
  cases buffer with
  | none => rfl
  | some dst =>
    have hk : min cb._size k ≤ 0 := by rw [h]; exact min_le_left _ _
    rw [read_eq_of_nonpos cb dst k bytesRead hk]

theorem write_fails_of_full (cb : CircularBuffer) (buffer : Option Mem) (n bytesWritten : Int)
    (h : cb._size = cb._capacity) :
    cb.write buffer n bytesWritten = { ok := false, cb := cb, bytesWritten := bytesWritten } := by
  cases buffer with
  | none => rfl
  | some src =>
    have hn : min (cb._capacity - cb._size) n ≤ 0 := by
      rw [h, sub_self]; exact min_le_left _ _
    rw [write_eq_of_nonpos cb src n bytesWritten hn]

/-- C11. For every capacity `C > 0`, the buffer constructed with `overwriteWhenFull = false` has
`empty() = true` and `size() = 0`, and a read into any destination with any positive length
returns false, leaves the destination and the caller's byte count as they were, and leaves the
buffer empty. -/
theorem fresh_is_empty (C : Int) (_hC : 0 < C) (buffer : Option Mem) (k bytesRead : Int)
    (_hk : 0 < k) :
    ∃ cb, construct C false = some cb ∧ cb.empty = true ∧ cb.size = 0 ∧
      (cb.read buffer k bytesRead).ok = false ∧
      (cb.read buffer k bytesRead).buffer = buffer ∧
      (cb.read buffer k bytesRead).bytesRead = bytesRead ∧
      (cb.read buffer k bytesRead).cb = cb ∧
      (cb.read buffer k bytesRead).cb.empty = true := by
  obtain ⟨cb, h⟩ := construct_some C
  have hs : cb._size = 0 := by
    simp only [construct, if_true, Option.some.injEq] at h
    rw [← h]
  have he : cb.empty = true := by simp [empty, hs]
  refine ⟨cb, h, he, hs, ?_⟩
  rw [read_fails_of_size_zero cb buffer k bytesRead hs]
  exact ⟨rfl, rfl, rfl, rfl, he⟩

/-- C12. After writing exactly `C` bytes into an empty capacity-`C` buffer the size is `C`, and a
subsequent write of any positive length returns false, leaves `size() = C` and leaves the object,
hence the stored contents, unchanged; the same rejection holds in every state whose size equals
its capacity, however it was filled. -/
theorem full_rejects_write (cb : CircularBuffer) (src : List Byte) (buffer : Option Mem)
    (n bytesWritten bytesWritten2 : Int) (hwf : WellFormed cb) (hempty : cb._size = 0)
    (hlen : (src.length : Int) = cb._capacity) (_hn : 0 < n) :
    (cb.write (some (memOfList src)) src.length bytesWritten).ok = true ∧
    (cb.write (some (memOfList src)) src.length bytesWritten).bytesWritten = cb._capacity ∧
    (cb.write (some (memOfList src)) src.length bytesWritten).cb.size = cb._capacity ∧
    contents (cb.write (some (memOfList src)) src.length bytesWritten).cb = src ∧
    ((cb.write (some (memOfList src)) src.length bytesWritten).cb.write
      buffer n bytesWritten2).ok = false ∧
    ((cb.write (some (memOfList src)) src.length bytesWritten).cb.write
      buffer n bytesWritten2).cb.size = cb._capacity ∧
    ((cb.write (some (memOfList src)) src.length bytesWritten).cb.write
      buffer n bytesWritten2).cb = (cb.write (some (memOfList src)) src.length bytesWritten).cb ∧
    contents ((cb.write (some (memOfList src)) src.length bytesWritten).cb.write
      buffer n bytesWritten2).cb = src ∧
    ∀ full : CircularBuffer, full._size = full._capacity →
      (full.write buffer n bytesWritten2).ok = false ∧
      (full.write buffer n bytesWritten2).cb = full := by
  have hcap : 0 < cb._capacity := hwf.1
  have hw : min (cb._capacity - cb._size) src.length = cb._capacity := by
    rw [hempty, sub_zero, hlen, min_self]
  have hpos : 0 < min (cb._capacity - cb._size) src.length := by rw [hw]; exact hcap
  have hs : (cb.write (some (memOfList src)) src.length bytesWritten).cb._size =
      (cb.write (some (memOfList src)) src.length bytesWritten).cb._capacity := by
    rw [write_eq_of_pos cb _ _ bytesWritten hpos, hw, hempty, zero_add]
  have hsz : (cb.write (some (memOfList src)) src.length bytesWritten).cb.size = cb._capacity := by
    rw [write_eq_of_pos cb _ _ bytesWritten hpos, hw]
    simp only [size, hempty, zero_add]
  have hcont : contents (cb.write (some (memOfList src)) src.length bytesWritten).cb = src := by
    rw [write_contents cb _ _ bytesWritten hwf hpos, contents_of_size_zero cb hempty,
      List.nil_append, bytesOf_memOfList _ _ (min_le_right _ _), hw, ← hlen]
    simp
  have hrej := write_fails_of_full _ buffer n bytesWritten2 hs
  refine ⟨?_, ?_, hsz, hcont, ?_, ?_, ?_, ?_, ?_⟩
  · rw [write_eq_of_pos cb _ _ bytesWritten hpos]
  · rw [write_eq_of_pos cb _ _ bytesWritten hpos, hw]
  · rw [hrej]
  · rw [hrej]; exact hsz
  · rw [hrej]
  · rw [hrej]; exact hcont
  · intro full hfull
    rw [write_fails_of_full full buffer n bytesWritten2 hfull]
    exact ⟨rfl, rfl⟩

/-- C13, as amended. For every capacity `C >= 2`, writing `C + 1` bytes into an empty
capacity-`C` buffer succeeds and reports `bytesWritten = C`; then reading with a destination
capacity of `C - 1` bytes succeeds and reports `bytesRead = C - 1`, leaving `size() = 1`. -/
theorem short_transfer (cb : CircularBuffer) (src : List Byte) (dst : Mem)
    (bytesWritten bytesRead : Int) (_hwf : WellFormed cb) (hempty : cb._size = 0)
    (hC : 2 ≤ cb._capacity) (hlen : (src.length : Int) = cb._capacity + 1) :
    (cb.write (some (memOfList src)) src.length bytesWritten).ok = true ∧
    (cb.write (some (memOfList src)) src.length bytesWritten).bytesWritten = cb._capacity ∧
    ((cb.write (some (memOfList src)) src.length bytesWritten).cb.read
      (some dst) (cb._capacity - 1) bytesRead).ok = true ∧
    ((cb.write (some (memOfList src)) src.length bytesWritten).cb.read
      (some dst) (cb._capacity - 1) bytesRead).bytesRead = cb._capacity - 1 ∧
    ((cb.write (some (memOfList src)) src.length bytesWritten).cb.read
      (some dst) (cb._capacity - 1) bytesRead).cb.size = 1 := by
  have hw : min (cb._capacity - cb._size) src.length = cb._capacity := by
    rw [hempty, sub_zero, hlen]; exact min_eq_left (by omega)
  have hpos : 0 < min (cb._capacity - cb._size) src.length := by rw [hw]; omega
  have hs : (cb.write (some (memOfList src)) src.length bytesWritten).cb._size =
      cb._capacity := by
    rw [write_eq_of_pos cb _ _ bytesWritten hpos, hw, hempty, zero_add]
  have hr : min (cb.write (some (memOfList src)) src.length bytesWritten).cb._size
      (cb._capacity - 1) = cb._capacity - 1 := by
    rw [hs]; exact min_eq_right (by omega)
  have hk : 0 < min (cb.write (some (memOfList src)) src.length bytesWritten).cb._size
      (cb._capacity - 1) := by rw [hr]; omega
  have hrs := read_eq_of_pos (cb.write (some (memOfList src)) src.length bytesWritten).cb
    dst (cb._capacity - 1) bytesRead hk
  refine ⟨?_, ?_, ?_, ?_, ?_⟩
  · rw [write_eq_of_pos cb _ _ bytesWritten hpos]
  · rw [write_eq_of_pos cb _ _ bytesWritten hpos, hw]
  · rw [hrs]
  · rw [hrs]; exact hr
  · rw [hrs]
    simp only [size, hr, hs]
    omega

/-- C13, refuted as stated. With capacity `C = 1`, writing `C + 1 = 2` bytes into the freshly
constructed buffer succeeds with `bytesWritten = 1`, but the read with destination capacity
`C - 1 = 0` returns false (nothing is read, `bytesRead` keeps its old value, the size stays 1). -/
theorem short_transfer_counterexample :
    construct 1 false = some fresh1 ∧ WellFormed fresh1 ∧ fresh1.empty = true ∧
    (fresh1.write (some (memOfList [5, 6])) 2 0).ok = true ∧
    (fresh1.write (some (memOfList [5, 6])) 2 0).bytesWritten = 1 ∧
    ((fresh1.write (some (memOfList [5, 6])) 2 0).cb.read (some zeroMem) (1 - 1) 7).ok = false ∧
    ((fresh1.write (some (memOfList [5, 6])) 2 0).cb.read (some zeroMem) (1 - 1) 7).bytesRead = 7 ∧
    ((fresh1.write (some (memOfList [5, 6])) 2 0).cb.read (some zeroMem) (1 - 1) 7).cb.size = 1 := by
  refine ⟨rfl, by decide, by decide, by decide, by decide, by decide, by decide, by decide⟩

/-- C14. From every state, `clear()` sets size and both cursors to 0 and leaves the capacity and
every storage byte unchanged, so that afterwards `empty() = true`, `size() = 0`, the logical
contents are empty and a read is rejected; clearing twice equals clearing once; on a freshly
constructed buffer clear changes nothing; and when the capacity is positive, a read that follows
a write after the clear returns only bytes of that write, in order. -/
theorem clear_resets (cb : CircularBuffer) :
    cb.clear._size = 0 ∧ cb.clear._iProducer = 0 ∧ cb.clear._iConsumer = 0 ∧
    cb.clear._capacity = cb._capacity ∧ cb.clear._buffer = cb._buffer ∧
    cb.clear.empty = true ∧ cb.clear.size = 0 ∧ contents cb.clear = [] ∧
    (∀ (buffer : Option Mem) (k bytesRead : Int), (cb.clear.read buffer k bytesRead).ok = false) ∧
    cb.clear.clear = cb.clear ∧
    (∀ (C : Int) (fresh : CircularBuffer), construct C false = some fresh → fresh.clear = fresh) ∧
    (0 < cb._capacity → ∀ (src dst : Mem) (n k bytesWritten bytesRead : Int),
      (cb.clear.write (some src) n bytesWritten).ok = true →
      ((cb.clear.write (some src) n bytesWritten).cb.read (some dst) k bytesRead).ok = true →
      ∃ out,
        ((cb.clear.write (some src) n bytesWritten).cb.read (some dst) k bytesRead).buffer =
          some out ∧
        bytesOf out
            ((cb.clear.write (some src) n bytesWritten).cb.read (some dst) k bytesRead).bytesRead =
          (bytesOf src (cb.clear.write (some src) n bytesWritten).bytesWritten).take
            ((cb.clear.write (some src) n bytesWritten).cb.read
              (some dst) k bytesRead).bytesRead.toNat) := by
  refine ⟨rfl, rfl, rfl, rfl, rfl, rfl, rfl, rfl, ?_, rfl, ?_, ?_⟩
  · intro buffer k bytesRead
    rw [read_fails_of_size_zero cb.clear buffer k bytesRead rfl]
  · intro C fresh h
    simp only [construct, if_true, Option.some.injEq] at h
    rw [← h]
    rfl
  · intro hcap src dst n k bytesWritten bytesRead hw hr
    have hwf : WellFormed cb.clear := by
      unfold WellFormed clear
      simp only
      rw [emod_wrap (by omega) (by omega)]
      simp [hcap, le_of_lt hcap]
    have hn := pos_of_write_ok cb.clear src n bytesWritten hw
    have hk := pos_of_read_ok _ dst k bytesRead hr
    obtain ⟨out, hout, hcount, hbytes⟩ :=
      write_read_bytes cb.clear src dst n k bytesWritten bytesRead hwf hn hk
    refine ⟨out, hout, ?_⟩
    rw [hcount, hbytes, contents_of_size_zero cb.clear rfl, List.nil_append]
    rw [write_eq_of_pos cb.clear src n bytesWritten hn]

/-- C15, as amended. On a capacity-3 buffer, writing `1, 2, 3` gives size 3 and leaves the
producer cursor wrapped to index 0; reading 1 byte yields `1`, the size becomes 2 and the consumer
cursor 1; writing the byte `4` succeeds, stores it at storage index 0 and advances the producer
cursor to index 1, and the size becomes 3; reading the remaining 3 bytes yields `2, 3, 4` in
order and empties the buffer. -/
theorem wraparound_scenario :
    construct 3 false = some fresh3 ∧
    ((fresh3.write (some (memOfList [1, 2, 3])) 3 0).ok = true ∧
      afterWrite123.size = 3 ∧ afterWrite123._iProducer = 0) ∧
    ((afterWrite123.read (some zeroMem) 1 0).ok = true ∧
      (afterWrite123.read (some zeroMem) 1 0).bytesRead = 1 ∧
      (afterWrite123.read (some zeroMem) 1 0).buffer.map (fun out => bytesOf out 1) = some [1] ∧
      afterRead1.size = 2 ∧ afterRead1._iConsumer = 1) ∧
    ((afterRead1.write (some (memOfList [4])) 1 0).ok = true ∧
      afterWrite4._buffer 0 = 4 ∧ afterWrite4._iProducer = 1 ∧ afterWrite4.size = 3) ∧
    ((afterWrite4.read (some zeroMem) 3 0).ok = true ∧
      (afterWrite4.read (some zeroMem) 3 0).bytesRead = 3 ∧
      (afterWrite4.read (some zeroMem) 3 0).buffer.map (fun out => bytesOf out 3) =
        some [2, 3, 4] ∧
      (afterWrite4.read (some zeroMem) 3 0).cb.empty = true) := by
  refine ⟨rfl, ⟨by decide, by decide, by decide⟩,
    ⟨by decide, by decide, by decide, by decide, by decide⟩,
    ⟨by decide, by decide, by decide, by decide⟩,
    ⟨by decide, by decide, by decide, by decide⟩⟩

/-- C15, refuted as stated. In the scenario the producer cursor is at index 0 before the byte
`4` is written (it wrapped at the end of the first write); the write of `4` succeeds and moves
the producer cursor to index 1, so after that write it is not at index 0. -/
theorem wraparound_scenario_counterexample :
    construct 3 false = some fresh3 ∧
    afterWrite123 = (fresh3.write (some (memOfList [1, 2, 3])) 3 0).cb ∧
    afterRead1 = (afterWrite123.read (some zeroMem) 1 0).cb ∧
    afterRead1._iProducer = 0 ∧
    (afterRead1.write (some (memOfList [4])) 1 0).ok = true ∧
    (afterRead1.write (some (memOfList [4])) 1 0).cb._iProducer = 1 ∧
    (afterRead1.write (some (memOfList [4])) 1 0).cb._iProducer ≠ 0 := by
  refine ⟨rfl, rfl, rfl, by decide, by decide, by decide, by decide⟩

theorem bytesOf_one (m : Mem) : bytesOf m 1 = [m 0] := rfl

theorem writeEach_spec (bs : List Byte) :
    ∀ cb : CircularBuffer, WellFormed cb → cb._capacity ≤ 2147483647 →
      cb._size + (bs.length : Int) ≤ cb._capacity →
      (writeEach cb bs).1 =
        (List.range bs.length).map (fun (i : Nat) => (true, cb._size + (i : Int) + 1)) ∧
      WellFormed (writeEach cb bs).2 ∧
      contents (writeEach cb bs).2 = contents cb ++ bs ∧
      (writeEach cb bs).2._size = cb._size + (bs.length : Int) ∧
      (writeEach cb bs).2._capacity = cb._capacity := by
  induction bs with
  | nil =>
    intro cb hwf _ _
    simp [writeEach, hwf]
  | cons b bs ih =>
    intro cb hwf hint hroom
    have hlen : ((b :: bs).length : Int) = (bs.length : Int) + 1 := by simp
    have hw : min (cb._capacity - cb._size) 1 = 1 := by
      apply min_eq_right
      have := hwf.2.1
      omega
    have hpos : 0 < min (cb._capacity - cb._size) 1 := by rw [hw]; decide
    have e := write_eq_of_pos cb (memOfList [b]) 1 0 hpos
    have hs : (cb.write (some (memOfList [b])) 1 0).cb._size = cb._size + 1 := by
      rw [e, hw]
    have hcap : (cb.write (some (memOfList [b])) 1 0).cb._capacity = cb._capacity := by
      rw [e]
    have hok : (cb.write (some (memOfList [b])) 1 0).ok = true := by rw [e]
    have hwf1 := wellFormed_write_of_fits cb (some (memOfList [b])) 1 0 hwf
      (by rw [hw]; have := hwf.2.2.2.2.1; omega)
    have hc : contents (cb.write (some (memOfList [b])) 1 0).cb = contents cb ++ [b] := by
      rw [write_contents cb _ _ 0 hwf hpos, hw]
      rfl
    obtain ⟨h1, h2, h3, h4, h5⟩ := ih (cb.write (some (memOfList [b])) 1 0).cb hwf1
      (by rw [hcap]; exact hint) (by rw [hs, hcap]; omega)
    refine ⟨?_, h2, ?_, ?_, ?_⟩
    · simp only [writeEach, h1, hok, size, hs, List.length_cons, List.range_succ_eq_map,
        List.map_cons, List.map_map]
      refine congrArg₂ _ (by simp) ?_
      apply List.map_congr_left
      intro i _
      simp only [Function.comp, Nat.succ_eq_add_one, Prod.mk.injEq, true_and]
      push_cast
      omega
    · simp only [writeEach, h3, hc, List.append_assoc, List.singleton_append]
    · simp only [writeEach, h4, hs, hlen]
      omega
    · simp only [writeEach, h5, hcap]

theorem readEach_spec (n : Nat) :
    ∀ (cb : CircularBuffer) (valR : Mem), WellFormed cb → cb._capacity ≤ 2147483647 →
      (n : Int) ≤ cb._size →
      (readEach cb valR n).1 = ((contents cb).take n).map (fun b => (true, b)) ∧
      (readEach cb valR n).2._size = cb._size - (n : Int) := by
  induction n with
  | zero =>
    intro cb valR _ _ _
    simp [readEach]
  | succ n ih =>
    intro cb valR hwf hint hn
    have hr : min cb._size 1 = 1 := by
      apply min_eq_right
      omega
    have hpos : 0 < min cb._size 1 := by rw [hr]; decide
    have hfit : cb._iConsumer + min cb._size 1 ≤ 2147483647 := by
      rw [hr]; have := hwf.2.2.2.2.2.2.1; omega
    obtain ⟨out, hout⟩ := read_buffer_some cb valR 1 0 hpos
    have hb := read_bytes cb valR 1 0 (readable_of_wellFormed cb hwf) hpos out hout
    rw [hr, bytesOf_one, show Int.toNat 1 = 1 from rfl] at hb
    have hc := read_contents cb valR 1 0 hwf.1 hwf.2.2.2.2.2.1 hfit hpos
    rw [hr, show Int.toNat 1 = 1 from rfl] at hc
    have e := read_eq_of_pos cb valR 1 0 hpos
    have hok : (cb.read (some valR) 1 0).ok = true := by rw [e]
    have hs : (cb.read (some valR) 1 0).cb._size = cb._size - 1 := by rw [e, hr]
    have hcap : (cb.read (some valR) 1 0).cb._capacity = cb._capacity := by rw [e]
    have hwf1 := wellFormed_read_of_fits cb (some valR) 1 0 hwf hfit
    obtain ⟨h1, h2⟩ := ih (cb.read (some valR) 1 0).cb out hwf1 (by rw [hcap]; exact hint)
      (by rw [hs]; omega)
    refine ⟨?_, ?_⟩
    · simp only [readEach, hout, Option.getD_some, h1, hok, hc]
      rw [show n + 1 = 1 + n by omega, List.take_add, ← hb]
      simp
    · simp only [readEach, hout, Option.getD_some, h2, hs]
      push_cast
      omega

/-- C16. For every capacity `C >= 1` (an `int`, so at most `INT_MAX`) and every byte sequence
`b1 .. bC`, writing the bytes one at a time into an empty buffer succeeds each time with sizes
`1, 2, .., C`; one further single-byte write returns false, leaves the size at `C` and the object
as it was; then, on the object that rejected write left behind, `C` single-byte reads each
succeed and yield `b1, .., bC` in order, after which the buffer is empty. -/
theorem fill_and_drain (cb : CircularBuffer) (bs : List Byte) (valR : Mem) (extra : Byte)
    (bytesWritten : Int) (hwf : WellFormed cb) (hempty : cb._size = 0)
    (hlen : (bs.length : Int) = cb._capacity) (hint : cb._capacity ≤ 2147483647) :
    (writeEach cb bs).1 = (List.range bs.length).map (fun (i : Nat) => (true, (i : Int) + 1)) ∧
    ((writeEach cb bs).2.write (some (memOfList [extra])) 1 bytesWritten).ok = false ∧
    ((writeEach cb bs).2.write (some (memOfList [extra])) 1 bytesWritten).cb.size =
      cb._capacity ∧
    ((writeEach cb bs).2.write (some (memOfList [extra])) 1 bytesWritten).cb =
      (writeEach cb bs).2 ∧
    (readEach ((writeEach cb bs).2.write (some (memOfList [extra])) 1 bytesWritten).cb
      valR bs.length).1 = bs.map (fun b => (true, b)) ∧
    (readEach ((writeEach cb bs).2.write (some (memOfList [extra])) 1 bytesWritten).cb
      valR bs.length).2.empty = true := by
  obtain ⟨h1, h2, h3, h4, h5⟩ := writeEach_spec bs cb hwf hint (by rw [hempty, hlen]; omega)
  rw [hempty, zero_add] at h4
  have hfull : (writeEach cb bs).2._size = (writeEach cb bs).2._capacity := by
    rw [h4, h5, hlen]
  have hrej := write_fails_of_full (writeEach cb bs).2 (some (memOfList [extra])) 1
    bytesWritten hfull
  obtain ⟨r1, r2⟩ := readEach_spec bs.length (writeEach cb bs).2 valR h2
    (by rw [h5]; exact hint) (by rw [h4])
  rw [hrej]
  refine ⟨?_, rfl, ?_, rfl, ?_, ?_⟩
  · rw [h1, hempty]
    simp
  · simp only [size, h4, hlen]
  · rw [r1, h3, contents_of_size_zero cb hempty, List.nil_append, List.take_length]
  · simp only [empty, r2, h4, sub_self, decide_True]

/-! The storage written by `write`, copy by copy. -/

theorem write_storage_producer_at (cb : CircularBuffer) (src : Mem) (n bytesWritten : Int)
    (hwf : WellFormed cb) (hn : 0 < min (cb._capacity - cb._size) n) (i : Int) (hi0 : 0 ≤ i)
    (hi : i < min (cb._capacity - cb._size) n) :
    (cb.write (some src) n bytesWritten).cb._buffer ((cb._iProducer + i) % cb._capacity) =
      src i := by
  have hp := wellFormed_producer cb hwf
  obtain ⟨hc, hs0, hs1, hp0, hp1, hc0, hc1, _⟩ := hwf
  rw [write_eq_of_pos cb src n bytesWritten hn]
  have hw : min (cb._capacity - cb._size) n ≤ cb._capacity - cb._size := min_le_left _ _
  rw [emod_wrap (by omega) (by omega)]
  generalize min (cb._capacity - cb._size) n = w at *
  simp only
  split_ifs at hp ⊢ <;> simp only [memmove] <;> split_ifs <;>
    first
      | (exfalso; omega)
      | (congr 1; omega)

theorem write_storage_outside (cb : CircularBuffer) (src : Mem) (n bytesWritten : Int)
    (hwf : WellFormed cb) (hn : 0 < min (cb._capacity - cb._size) n) (x : Int)
    (h1 : ¬ (cb._iProducer ≤ x ∧ x < cb._iProducer + min (cb._capacity - cb._size) n ∧
      x < cb._capacity))
    (h2 : ¬ (0 ≤ x ∧ x < cb._iProducer + min (cb._capacity - cb._size) n - cb._capacity)) :
    (cb.write (some src) n bytesWritten).cb._buffer x = cb._buffer x := by
  have hp := wellFormed_producer cb hwf
  obtain ⟨hc, hs0, hs1, hp0, hp1, hc0, hc1, _⟩ := hwf
  rw [write_eq_of_pos cb src n bytesWritten hn]
  have hw : min (cb._capacity - cb._size) n ≤ cb._capacity - cb._size := min_le_left _ _
  generalize min (cb._capacity - cb._size) n = w at *
  simp only
  split_ifs at hp ⊢ <;> simp only [memmove] <;> split_ifs <;>
    first
      | (exfalso; omega)
      | rfl

/-- C17. After a successful write on a well-formed state, with
`w = min(capacity - size, sourceLength) > 0`: `storage[(producer + i) mod capacity] = source[i]`
for every `i` in `[0, w)`; every other storage slot, in particular every slot of the occupied
region, holds the byte it held before; and when `w > capacity - producer` the first
`capacity - producer` source bytes lie at the tail of storage and the remaining
`w - (capacity - producer)` bytes at offset 0. -/
theorem write_storage_effect (cb : CircularBuffer) (src : Mem) (n bytesWritten : Int)
    (hwf : WellFormed cb) (hn : 0 < min (cb._capacity - cb._size) n) :
    (cb.write (some src) n bytesWritten).ok = true ∧
    (∀ i : Int, 0 ≤ i → i < min (cb._capacity - cb._size) n →
      (cb.write (some src) n bytesWritten).cb._buffer ((cb._iProducer + i) % cb._capacity) =
        src i) ∧
    (∀ x : Int,
      (∀ i : Int, 0 ≤ i → i < min (cb._capacity - cb._size) n →
        x ≠ (cb._iProducer + i) % cb._capacity) →
      (cb.write (some src) n bytesWritten).cb._buffer x = cb._buffer x) ∧
    (∀ j : Int, 0 ≤ j → j < cb._size →
      (cb.write (some src) n bytesWritten).cb._buffer ((cb._iConsumer + j) % cb._capacity) =
        cb._buffer ((cb._iConsumer + j) % cb._capacity)) ∧
    (min (cb._capacity - cb._size) n > cb._capacity - cb._iProducer →
      (∀ i : Int, 0 ≤ i → i < cb._capacity - cb._iProducer →
        (cb.write (some src) n bytesWritten).cb._buffer (cb._iProducer + i) = src i) ∧
      (∀ i : Int, 0 ≤ i →
        i < min (cb._capacity - cb._size) n - (cb._capacity - cb._iProducer) →
        (cb.write (some src) n bytesWritten).cb._buffer i =
          src (cb._capacity - cb._iProducer + i))) := by
  have hat := write_storage_producer_at cb src n bytesWritten hwf hn
  have hw : min (cb._capacity - cb._size) n ≤ cb._capacity - cb._size := min_le_left _ _
  have hwf0 := hwf
  obtain ⟨hc, hs0, hs1, hp0, hp1, hc0, hc1, _⟩ := hwf
  refine ⟨by rw [write_eq_of_pos cb src n bytesWritten hn], hat, ?_, ?_, ?_⟩
  · intro x hx
    apply write_storage_outside cb src n bytesWritten hwf0 hn x
    · rintro ⟨a, b, c⟩
      apply hx (x - cb._iProducer) (by omega) (by omega)
      rw [emod_wrap (by omega) (by omega), if_pos (by omega)]
      omega
    · rintro ⟨a, b⟩
      apply hx (x + cb._capacity - cb._iProducer) (by omega) (by omega)
      rw [emod_wrap (by omega) (by omega), if_neg (by omega)]
      omega
  · intro j hj0 hj
    rw [write_storage_at cb src n bytesWritten hwf0 hn j hj0 (by omega), if_pos hj]
  · intro hsplit
    constructor
    · intro i hi0 hi
      have h := hat i hi0 (by omega)
      rw [emod_wrap (by omega) (by omega), if_pos (by omega)] at h
      exact h
    · intro i hi0 hi
      have h := hat (cb._capacity - cb._iProducer + i) (by omega) (by omega)
      rw [emod_wrap (by omega) (by omega), if_neg (by omega)] at h
      rw [← h]
      congr 1
      omega

/-! The three-branch copy of the code against the two-case rule of the specification. -/

theorem write_refines_spec (cb : CircularBuffer) (hwf : WellFormed cb) (buffer : Option Mem)
    (n bytesWritten : Int) :
    (cb.write buffer n bytesWritten).ok = (specWrite cb buffer n).1 ∧
    (cb.write buffer n bytesWritten).cb._buffer = (specWrite cb buffer n).2._buffer ∧
    (cb.write buffer n bytesWritten).cb._size = (specWrite cb buffer n).2._size := by
  cases buffer with
  | none => exact ⟨rfl, rfl, rfl⟩
  | some src =>
    by_cases hn : min (cb._capacity - cb._size) n ≤ 0
    · rw [write_eq_of_nonpos cb src n bytesWritten hn]
      simp only [specWrite, hn, if_true, and_self]
    · have hpos : 0 < min (cb._capacity - cb._size) n := not_le.mp hn
      rw [write_eq_of_pos cb src n bytesWritten hpos]
      simp only [specWrite, hn, if_false, true_and, and_true]
      have hp := wellFormed_producer cb hwf
      obtain ⟨hc, hs0, hs1, hp0, hp1, hc0, hc1, _⟩ := hwf
      have hw : min (cb._capacity - cb._size) n ≤ cb._capacity - cb._size := min_le_left _ _
      generalize min (cb._capacity - cb._size) n = w at *
      simp only [specCopyIn]
      split_ifs at hp ⊢ <;> first | rfl | (exfalso; omega)

theorem read_refines_spec (cb : CircularBuffer) (hwf : WellFormed cb) (buffer : Option Mem)
    (k bytesRead : Int) :
    (cb.read buffer k bytesRead).ok = (specRead cb buffer k).1 ∧
    (cb.read buffer k bytesRead).buffer = (specRead cb buffer k).2.2 ∧
    (cb.read buffer k bytesRead).cb._size = (specRead cb buffer k).2.1._size ∧
    (cb.read buffer k bytesRead).cb._buffer = (specRead cb buffer k).2.1._buffer := by
  cases buffer with
  | none => exact ⟨rfl, rfl, rfl, rfl⟩
  | some dst =>
    by_cases hk : min cb._size k ≤ 0
    · rw [read_eq_of_nonpos cb dst k bytesRead hk]
      simp only [specRead, hk, if_true, and_self]
    · have hpos : 0 < min cb._size k := not_le.mp hk
      rw [read_eq_of_pos cb dst k bytesRead hpos]
      simp only [specRead, hk, if_false, true_and, and_true, Option.some.injEq]
      have hp := wellFormed_producer cb hwf
      obtain ⟨hc, hs0, hs1, hp0, hp1, hc0, hc1, _⟩ := hwf
      have hr : min cb._size k ≤ cb._size := min_le_left _ _
      generalize min cb._size k = r at *
      simp only [specCopyOut]
      split_ifs at hp ⊢ <;> first | rfl | (exfalso; omega)

/-- C18. On every well-formed state and for every argument, `write` returns the flag and
produces the storage of the specification's rule, and `read` returns the flag and produces the
destination bytes of the specification's rule (single copy if the run from the cursor to
end-of-storage holds the whole run, otherwise split at end-of-storage and continue at offset 0),
with the same size afterwards; and the code copies once from the producer cursor when
`producer < consumer` in `write`, and once from the consumer cursor when `consumer < producer`
in `read`, without looking at the end of storage. -/
theorem copy_rule_refinement (cb : CircularBuffer) (hwf : WellFormed cb)
    (source destination : Option Mem) (n k bytesWritten bytesRead : Int) :
    ((cb.write source n bytesWritten).ok = (specWrite cb source n).1 ∧
      (cb.write source n bytesWritten).cb._buffer = (specWrite cb source n).2._buffer ∧
      (cb.write source n bytesWritten).cb._size = (specWrite cb source n).2._size) ∧
    ((cb.read destination k bytesRead).ok = (specRead cb destination k).1 ∧
      (cb.read destination k bytesRead).buffer = (specRead cb destination k).2.2 ∧
      (cb.read destination k bytesRead).cb._size = (specRead cb destination k).2.1._size ∧
      (cb.read destination k bytesRead).cb._buffer = (specRead cb destination k).2.1._buffer) ∧
    (∀ src : Mem, 0 < min (cb._capacity - cb._size) n →
      (cb.write (some src) n bytesWritten).cb._buffer =
        specCopyIn cb._buffer cb._capacity cb._iProducer src (min (cb._capacity - cb._size) n) ∧
      (cb._iProducer < cb._iConsumer →
        (cb.write (some src) n bytesWritten).cb._buffer =
          memmove cb._buffer cb._iProducer src 0 (min (cb._capacity - cb._size) n))) ∧
    (∀ dst : Mem, 0 < min cb._size k →
      (cb.read (some dst) k bytesRead).buffer =
        some (specCopyOut dst cb._capacity cb._iConsumer cb._buffer (min cb._size k)) ∧
      (cb._iConsumer < cb._iProducer →
        (cb.read (some dst) k bytesRead).buffer =
          some (memmove dst 0 cb._buffer cb._iConsumer (min cb._size k)))) := by
  refine ⟨write_refines_spec cb hwf source n bytesWritten,
    read_refines_spec cb hwf destination k bytesRead, ?_, ?_⟩
  · intro src hn
    constructor
    · rw [(write_refines_spec cb hwf (some src) n bytesWritten).2.1]
      simp only [specWrite, not_le.mpr hn, if_false]
    · intro hlt
      rw [write_eq_of_pos cb src n bytesWritten hn]
      simp only [hlt, if_true]
  · intro dst hk
    constructor
    · rw [(read_refines_spec cb hwf (some dst) k bytesRead).2.1]
      simp only [specRead, not_le.mpr hk, if_false]
    · intro hlt
      rw [read_eq_of_pos cb dst k bytesRead hk]
      simp only [hlt, if_true]

/-- C19. When `write` returns false the caller's `bytesWritten` variable still holds the value
it had before the call, and when `read` returns false the caller's `bytesRead` variable still
holds the value it had before the call. -/
theorem failed_call_keeps_count (cb : CircularBuffer) (source destination : Option Mem)
    (n k bytesWritten bytesRead : Int) :
    ((cb.write source n bytesWritten).ok = false →
      (cb.write source n bytesWritten).bytesWritten = bytesWritten) ∧
    ((cb.read destination k bytesRead).ok = false →
      (cb.read destination k bytesRead).bytesRead = bytesRead) := by
  constructor
  · cases source with
    | none => intro _; rfl
    | some src =>
      by_cases hn : min (cb._capacity - cb._size) n ≤ 0
      · rw [write_eq_of_nonpos cb src n bytesWritten hn]; intro _; rfl
      · rw [write_eq_of_pos cb src n bytesWritten (not_le.mp hn)]; intro h; simp at h
  · cases destination with
    | none => intro _; rfl
    | some dst =>
      by_cases hk : min cb._size k ≤ 0
      · rw [read_eq_of_nonpos cb dst k bytesRead hk]; intro _; rfl
      · rw [read_eq_of_pos cb dst k bytesRead (not_le.mp hk)]; intro h; simp at h

/-! The copies performed by `write` and `read` and their ranges. -/

theorem write_storage_eq_copies (cb : CircularBuffer) (src : Mem) (n bytesWritten : Int) :
    (cb.write (some src) n bytesWritten).cb._buffer =
      (writeCopies cb (some src) n).foldl (copyIn src) cb._buffer := by
  by_cases hn : min (cb._capacity - cb._size) n ≤ 0
  · rw [write_eq_of_nonpos cb src n bytesWritten hn]
    simp only [writeCopies, _availableSpace, hn, if_true, List.foldl_nil]
  · rw [write_eq_of_pos cb src n bytesWritten (not_le.mp hn)]
    simp only [writeCopies, _availableSpace, hn, if_false]
    split_ifs <;> rfl

theorem read_buffer_eq_copies (cb : CircularBuffer) (dst : Mem) (k bytesRead : Int) :
    (cb.read (some dst) k bytesRead).buffer =
      some ((readCopies cb (some dst) k).foldl (copyOut cb._buffer) dst) := by
  by_cases hk : min cb._size k ≤ 0
  · rw [read_eq_of_nonpos cb dst k bytesRead hk]
    simp only [readCopies, hk, if_true, List.foldl_nil]
  · rw [read_eq_of_pos cb dst k bytesRead (not_le.mp hk)]
    simp only [readCopies, hk, if_false]
    split_ifs <;> rfl

theorem writeCopies_bounds (cb : CircularBuffer) (hwf : WellFormed cb) (source : Option Mem)
    (n : Int) (c : Copy) (hc : c ∈ writeCopies cb source n) :
    0 < c.count ∧ 0 ≤ c.storageOffset ∧ c.storageOffset + c.count ≤ cb._capacity ∧
    0 ≤ c.callerOffset ∧ c.callerOffset + c.count ≤ n ∧
    (cb._iProducer < cb._iConsumer →
      c.storageOffset = cb._iProducer ∧ c.storageOffset + c.count ≤ cb._iConsumer) := by
  have hp := wellFormed_producer cb hwf
  obtain ⟨hcap, hs0, hs1, hp0, hp1, hc0, hc1, _⟩ := hwf
  cases source with
  | none => simp [writeCopies] at hc
  | some src =>
    have hw1 : min (cb._capacity - cb._size) n ≤ cb._capacity - cb._size := min_le_left _ _
    have hw2 : min (cb._capacity - cb._size) n ≤ n := min_le_right _ _
    simp only [writeCopies, _availableSpace] at hc
    generalize min (cb._capacity - cb._size) n = w at *
    split_ifs at hc hp <;> simp only [List.mem_cons, List.mem_singleton, List.not_mem_nil,
      or_false] at hc <;> first
      | exact absurd hc id
      | (subst hc; refine ⟨?_, ?_, ?_, ?_, ?_, fun _ => ⟨rfl, ?_⟩⟩ <;> simp only <;> omega)
      | (rcases hc with hc | hc <;> subst hc <;>
          refine ⟨?_, ?_, ?_, ?_, ?_, fun _ => ?_⟩ <;> simp only <;> omega)

theorem readCopies_bounds (cb : CircularBuffer) (hwf : WellFormed cb) (destination : Option Mem)
    (k : Int) (c : Copy) (hc : c ∈ readCopies cb destination k) :
    0 < c.count ∧ 0 ≤ c.storageOffset ∧ c.storageOffset + c.count ≤ cb._capacity ∧
    0 ≤ c.callerOffset ∧ c.callerOffset + c.count ≤ k := by
  have hp := wellFormed_producer cb hwf
  obtain ⟨hcap, hs0, hs1, hp0, hp1, hc0, hc1, _⟩ := hwf
  cases destination with
  | none => simp [readCopies] at hc
  | some dst =>
    have hr1 : min cb._size k ≤ cb._size := min_le_left _ _
    have hr2 : min cb._size k ≤ k := min_le_right _ _
    simp only [readCopies] at hc
    generalize min cb._size k = r at *
    split_ifs at hc hp <;> simp only [List.mem_cons, List.mem_singleton, List.not_mem_nil,
      or_false] at hc <;> first
      | exact absurd hc id
      | (subst hc; refine ⟨?_, ?_, ?_, ?_, ?_⟩ <;> simp only <;> omega)
      | (rcases hc with hc | hc <;> subst hc <;>
          refine ⟨?_, ?_, ?_, ?_, ?_⟩ <;> simp only <;> omega)

/-- C20. On every well-formed state and for every length argument, each copy performed by
`write` and by `read` has a positive length, touches only storage indices in `[0, capacity)` and
only caller-buffer indices in `[0, length argument)`; the single copy of the
`producer < consumer` branch of `write` starts at the producer cursor and ends at or before the
consumer cursor; and these copies, applied in order, are exactly what `write` does to the storage
and `read` to the destination. -/
theorem copies_in_bounds (cb : CircularBuffer) (hwf : WellFormed cb)
    (source destination : Option Mem) (n k : Int) :
    (∀ c ∈ writeCopies cb source n,
      0 < c.count ∧ 0 ≤ c.storageOffset ∧ c.storageOffset + c.count ≤ cb._capacity ∧
      0 ≤ c.callerOffset ∧ c.callerOffset + c.count ≤ n) ∧
    (∀ c ∈ readCopies cb destination k,
      0 < c.count ∧ 0 ≤ c.storageOffset ∧ c.storageOffset + c.count ≤ cb._capacity ∧
      0 ≤ c.callerOffset ∧ c.callerOffset + c.count ≤ k) ∧
    (cb._iProducer < cb._iConsumer → ∀ c ∈ writeCopies cb source n,
      c.storageOffset = cb._iProducer ∧ c.storageOffset + c.count ≤ cb._iConsumer ∧
      c.storageOffset + c.count ≤ cb._capacity) ∧
    (∀ (src : Mem) (bytesWritten : Int),
      (cb.write (some src) n bytesWritten).cb._buffer =
        (writeCopies cb (some src) n).foldl (copyIn src) cb._buffer) ∧
    (∀ (dst : Mem) (bytesRead : Int),
      (cb.read (some dst) k bytesRead).buffer =
        some ((readCopies cb (some dst) k).foldl (copyOut cb._buffer) dst)) := by
  refine ⟨?_, ?_, ?_, ?_, ?_⟩
  · intro c hc
    obtain ⟨h1, h2, h3, h4, h5, _⟩ := writeCopies_bounds cb hwf source n c hc
    exact ⟨h1, h2, h3, h4, h5⟩
  · intro c hc
    exact readCopies_bounds cb hwf destination k c hc
  · intro hlt c hc
    obtain ⟨_, _, h3, _, _, h6⟩ := writeCopies_bounds cb hwf source n c hc
    exact ⟨(h6 hlt).1, (h6 hlt).2, h3⟩
  · intro src bytesWritten
    exact write_storage_eq_copies cb src n bytesWritten
  · intro dst bytesRead
    exact read_buffer_eq_copies cb dst k bytesRead

/-! Instances of the boundary, scenario and copy theorems at concrete objects. -/

/-- C11 at capacity 3: the constructed buffer is empty and rejects a read of up to 8 bytes. -/
theorem fresh_is_empty_witness :
    ∃ cb, construct 3 false = some cb ∧ cb.empty = true ∧ cb.size = 0 ∧
      (cb.read (some zeroMem) 8 (-1)).ok = false ∧
      (cb.read (some zeroMem) 8 (-1)).buffer = some zeroMem ∧
      (cb.read (some zeroMem) 8 (-1)).bytesRead = -1 ∧
      (cb.read (some zeroMem) 8 (-1)).cb = cb ∧
      (cb.read (some zeroMem) 8 (-1)).cb.empty = true :=
  fresh_is_empty 3 (by decide) (some zeroMem) 8 (-1) (by decide)

/-- C12 at the empty capacity-3 object with both cursors at index 2: after writing `1, 2, 3` a
further one-byte write is rejected and the contents stay `1, 2, 3`. -/
theorem full_rejects_write_witness :
    WellFormed emptyAtTwo ∧
    (emptyAtTwo.write (some (memOfList [1, 2, 3])) ([1, 2, 3] : List Byte).length 0).cb.size =
      emptyAtTwo._capacity ∧
    ((emptyAtTwo.write (some (memOfList [1, 2, 3])) ([1, 2, 3] : List Byte).length 0).cb.write
      (some (memOfList [4])) 1 0).ok = false ∧
    contents ((emptyAtTwo.write (some (memOfList [1, 2, 3])) ([1, 2, 3] : List Byte).length 0).cb.write
      (some (memOfList [4])) 1 0).cb = [1, 2, 3] :=
  ⟨by decide,
    (full_rejects_write emptyAtTwo [1, 2, 3] (some (memOfList [4])) 1 0 0 (by decide) (by decide)
      (by decide) (by decide)).2.2.1,
    (full_rejects_write emptyAtTwo [1, 2, 3] (some (memOfList [4])) 1 0 0 (by decide) (by decide)
      (by decide) (by decide)).2.2.2.2.1,
    (full_rejects_write emptyAtTwo [1, 2, 3] (some (memOfList [4])) 1 0 0 (by decide) (by decide)
      (by decide) (by decide)).2.2.2.2.2.2.2.1⟩

/-- C13 as amended, at the fresh capacity-3 object: writing 4 bytes stores 3, and a read of up to
2 bytes takes 2 and leaves 1. -/
theorem short_transfer_witness :
    WellFormed fresh3 ∧
    (fresh3.write (some (memOfList [1, 2, 3, 4])) ([1, 2, 3, 4] : List Byte).length 0).ok = true ∧
    (fresh3.write (some (memOfList [1, 2, 3, 4])) ([1, 2, 3, 4] : List Byte).length 0).bytesWritten =
      fresh3._capacity ∧
    ((fresh3.write (some (memOfList [1, 2, 3, 4])) ([1, 2, 3, 4] : List Byte).length 0).cb.read
      (some zeroMem) (fresh3._capacity - 1) 0).ok = true ∧
    ((fresh3.write (some (memOfList [1, 2, 3, 4])) ([1, 2, 3, 4] : List Byte).length 0).cb.read
      (some zeroMem) (fresh3._capacity - 1) 0).bytesRead = fresh3._capacity - 1 ∧
    ((fresh3.write (some (memOfList [1, 2, 3, 4])) ([1, 2, 3, 4] : List Byte).length 0).cb.read
      (some zeroMem) (fresh3._capacity - 1) 0).cb.size = 1 :=
  ⟨by decide,
    short_transfer fresh3 [1, 2, 3, 4] zeroMem 0 0 (by decide) (by decide) (by decide)
      (by decide)⟩

/-- C14 at the straddling capacity-3 object: after `clear`, writing `5, 6` and reading one byte
returns `5`, not one of the bytes stored before the clear. -/
theorem clear_resets_witness :
    0 < straddling._capacity ∧ contents straddling = [9, 7] ∧
    ∃ out,
      ((straddling.clear.write (some (memOfList [5, 6])) 2 0).cb.read (some zeroMem) 1 0).buffer =
        some out ∧
      bytesOf out
          ((straddling.clear.write (some (memOfList [5, 6])) 2 0).cb.read
            (some zeroMem) 1 0).bytesRead =
        (bytesOf (memOfList [5, 6])
            (straddling.clear.write (some (memOfList [5, 6])) 2 0).bytesWritten).take
          ((straddling.clear.write (some (memOfList [5, 6])) 2 0).cb.read
            (some zeroMem) 1 0).bytesRead.toNat :=
  ⟨by decide, by decide,
    (clear_resets straddling).2.2.2.2.2.2.2.2.2.2.2 (by decide) (memOfList [5, 6]) zeroMem 2 1 0 0
      (by decide) (by decide)⟩

/-- C16 at the fresh capacity-3 object and the bytes `1, 2, 3`: after the rejected write of `4`
the three reads return `1, 2, 3`. -/
theorem fill_and_drain_witness :
    WellFormed fresh3 ∧
    (writeEach fresh3 [1, 2, 3]).1 =
      (List.range ([1, 2, 3] : List Byte).length).map (fun (i : Nat) => (true, (i : Int) + 1)) ∧
    ((writeEach fresh3 [1, 2, 3]).2.write (some (memOfList [4])) 1 1).ok = false ∧
    ((writeEach fresh3 [1, 2, 3]).2.write (some (memOfList [4])) 1 1).cb.size =
      fresh3._capacity ∧
    ((writeEach fresh3 [1, 2, 3]).2.write (some (memOfList [4])) 1 1).cb =
      (writeEach fresh3 [1, 2, 3]).2 ∧
    (readEach ((writeEach fresh3 [1, 2, 3]).2.write (some (memOfList [4])) 1 1).cb zeroMem
      ([1, 2, 3] : List Byte).length).1 = ([1, 2, 3] : List Byte).map (fun b => (true, b)) ∧
    (readEach ((writeEach fresh3 [1, 2, 3]).2.write (some (memOfList [4])) 1 1).cb zeroMem
      ([1, 2, 3] : List Byte).length).2.empty = true :=
  ⟨by decide,
    fill_and_drain fresh3 [1, 2, 3] zeroMem 4 1 (by decide) (by decide) (by decide)
      (by decide)⟩

/-- C17 at the capacity-4 object holding `9` at index 2: writing `4, 5, 1` puts `4` at index 3
(the tail) and `5, 1` at indices 0 and 1, and index 2 keeps `9`. -/
theorem write_storage_effect_witness :
    WellFormed oneAtTwo ∧ 0 < min (oneAtTwo._capacity - oneAtTwo._size) 3 ∧
    (oneAtTwo.write (some (memOfList [4, 5, 1])) 3 0).cb._buffer
      ((oneAtTwo._iProducer + 1) % oneAtTwo._capacity) = memOfList [4, 5, 1] 1 ∧
    (oneAtTwo.write (some (memOfList [4, 5, 1])) 3 0).cb._buffer
      ((oneAtTwo._iConsumer + 0) % oneAtTwo._capacity) =
        oneAtTwo._buffer ((oneAtTwo._iConsumer + 0) % oneAtTwo._capacity) ∧
    (oneAtTwo.write (some (memOfList [4, 5, 1])) 3 0).cb._buffer 1 =
      memOfList [4, 5, 1] (oneAtTwo._capacity - oneAtTwo._iProducer + 1) :=
  ⟨by decide, by decide,
    (write_storage_effect oneAtTwo (memOfList [4, 5, 1]) 3 0 (by decide) (by decide)).2.1 1
      (by decide) (by decide),
    (write_storage_effect oneAtTwo (memOfList [4, 5, 1]) 3 0 (by decide) (by decide)).2.2.2.1 0
      (by decide) (by decide),
    ((write_storage_effect oneAtTwo (memOfList [4, 5, 1]) 3 0 (by decide) (by decide)).2.2.2.2
      (by decide)).2 1 (by decide) (by decide)⟩

/-- C18 at the straddling capacity-3 object (`producer < consumer`): a write of up to 2 bytes
and a read of up to 5 bytes agree with the specification's rule. -/
theorem copy_rule_refinement_witness :
    WellFormed straddling ∧
    ((straddling.write (some (memOfList [4, 5])) 2 0).ok =
        (specWrite straddling (some (memOfList [4, 5])) 2).1 ∧
      (straddling.write (some (memOfList [4, 5])) 2 0).cb._buffer =
        (specWrite straddling (some (memOfList [4, 5])) 2).2._buffer ∧
      (straddling.write (some (memOfList [4, 5])) 2 0).cb._size =
        (specWrite straddling (some (memOfList [4, 5])) 2).2._size) ∧
    ((straddling.read (some zeroMem) 5 0).ok = (specRead straddling (some zeroMem) 5).1 ∧
      (straddling.read (some zeroMem) 5 0).buffer = (specRead straddling (some zeroMem) 5).2.2 ∧
      (straddling.read (some zeroMem) 5 0).cb._size =
        (specRead straddling (some zeroMem) 5).2.1._size ∧
      (straddling.read (some zeroMem) 5 0).cb._buffer =
        (specRead straddling (some zeroMem) 5).2.1._buffer) :=
  ⟨by decide,
    (copy_rule_refinement straddling (by decide) (some (memOfList [4, 5])) (some zeroMem)
      2 5 0 0).1,
    (copy_rule_refinement straddling (by decide) (some (memOfList [4, 5])) (some zeroMem)
      2 5 0 0).2.1⟩

/-- C19 at the test's state after three single-byte writes: the fourth write is rejected and
`bytesWritten` still holds 1; a read with a null destination is rejected and `bytesRead` still
holds 5. -/
theorem failed_call_keeps_count_witness :
    construct 3 false = some fresh3 ∧ threeSingles.size = 3 ∧
    (threeSingles.write (some (memOfList [4])) 1 1).ok = false ∧
    (threeSingles.write (some (memOfList [4])) 1 1).bytesWritten = 1 ∧
    (threeSingles.read none 1 5).ok = false ∧
    (threeSingles.read none 1 5).bytesRead = 5 :=
  ⟨rfl, by decide, by decide,
    (failed_call_keeps_count threeSingles (some (memOfList [4])) none 1 1 1 5).1 (by decide),
    by decide,
    (failed_call_keeps_count threeSingles (some (memOfList [4])) none 1 1 1 5).2 (by decide)⟩

/-- C20 at the empty capacity-3 object with both cursors at index 2: a write of up to 5 bytes
makes two copies, one byte at index 2 and two bytes at index 0, all within bounds. -/
theorem copies_in_bounds_witness :
    WellFormed emptyAtTwo ∧
    (writeCopies emptyAtTwo (some zeroMem) 5).map
      (fun c => (c.storageOffset, c.callerOffset, c.count)) = [(2, 0, 1), (0, 1, 2)] ∧
    (∀ c ∈ writeCopies emptyAtTwo (some zeroMem) 5,
      0 < c.count ∧ 0 ≤ c.storageOffset ∧ c.storageOffset + c.count ≤ emptyAtTwo._capacity ∧
      0 ≤ c.callerOffset ∧ c.callerOffset + c.count ≤ 5) :=
  ⟨by decide, by decide,
    (copies_in_bounds emptyAtTwo (by decide) (some zeroMem) (some zeroMem) 5 5).1⟩

/-! The cursor update beyond the `int` range. -/

/-- C1, refuted as stated. On the well-formed capacity-2147483647 object holding `11, 22, 33`
with the consumer cursor at 2147483646, a read of 2 bytes returns true and delivers `11, 22`,
but `consumer + 2` exceeds `INT_MAX`: the consumer cursor becomes -2147483648 and the logical
contents of the state left behind are `11`, not the remaining byte `33`. -/
theorem read_fifo_counterexample :
    construct 2147483647 false = some freshIntMax ∧ nearIntMax = run freshIntMax callsToIntMax ∧
    WellFormed nearIntMax ∧ contents nearIntMax = [11, 22, 33] ∧
    0 < min nearIntMax._size 2 ∧
    (nearIntMax.read (some zeroMem) 2 0).ok = true ∧
    (nearIntMax.read (some zeroMem) 2 0).buffer.map (fun out => bytesOf out 2) = some [11, 22] ∧
    (contents nearIntMax).drop (min nearIntMax._size 2).toNat = [33] ∧
    contents (nearIntMax.read (some zeroMem) 2 0).cb = [11] ∧
    contents (nearIntMax.read (some zeroMem) 2 0).cb ≠
      (contents nearIntMax).drop (min nearIntMax._size 2).toNat := by
  refine ⟨rfl, rfl, by decide, by decide, by decide, by decide, by decide, by decide, by decide,
    by decide⟩

/-- C6, refuted as stated. From construction with capacity 1600000000, the calls write
1500000000 bytes, read 1500000000 bytes, write 1000000000 bytes leave the producer cursor at
-1794967296, outside `[0, C)` and different from `(consumer + size) mod C = 900000000`. -/
theorem cursor_invariant_counterexample :
    construct 1600000000 false = some fresh1600m ∧
    (run fresh1600m (roundTrip1500m ++ [.write (some zeroMem) 1000000000]))._iProducer =
      -1794967296 ∧
    (run fresh1600m (roundTrip1500m ++ [.write (some zeroMem) 1000000000]))._iConsumer =
      1500000000 ∧
    (run fresh1600m (roundTrip1500m ++ [.write (some zeroMem) 1000000000])).size =
      1000000000 ∧
    ¬ (0 ≤ (run fresh1600m (roundTrip1500m ++ [.write (some zeroMem) 1000000000]))._iProducer) ∧
    (run fresh1600m (roundTrip1500m ++ [.write (some zeroMem) 1000000000]))._iProducer ≠
      ((run fresh1600m (roundTrip1500m ++ [.write (some zeroMem) 1000000000]))._iConsumer +
        (run fresh1600m (roundTrip1500m ++ [.write (some zeroMem) 1000000000])).size) %
          1600000000 := by
  refine ⟨rfl, by decide, by decide, by decide, by decide, by decide⟩

/-- C7, refuted as stated. On the well-formed empty capacity-1600000000 object with both cursors
at 1500000000, a write of 1000000000 bytes returns true with `w = 1000000000`, but
`producer + w` exceeds `INT_MAX`: the producer cursor becomes -1794967296, not
`(producer + w) mod capacity = 900000000`. -/
theorem write_scalars_counterexample :
    construct 1600000000 false = some fresh1600m ∧ emptyAt1500m = run fresh1600m roundTrip1500m ∧
    WellFormed emptyAt1500m ∧ emptyAt1500m._iProducer = 1500000000 ∧
    min (emptyAt1500m._capacity - emptyAt1500m._size) 1000000000 = 1000000000 ∧
    (emptyAt1500m.write (some zeroMem) 1000000000 0).ok = true ∧
    (emptyAt1500m.write (some zeroMem) 1000000000 0).cb._iProducer = -1794967296 ∧
    (emptyAt1500m._iProducer + min (emptyAt1500m._capacity - emptyAt1500m._size) 1000000000) %
      emptyAt1500m._capacity = 900000000 := by
  refine ⟨rfl, rfl, by decide, by decide, by decide, by decide, by decide, by decide⟩

/-- C9, refuted as stated. On the well-formed capacity-2147483647 object with the consumer
cursor at 2147483646 and size 3, a read of 2 bytes returns true with `r = 2`, but
`consumer + r` exceeds `INT_MAX`: the consumer cursor becomes -2147483648, not
`(consumer + r) mod capacity = 1`. -/
theorem read_scalars_counterexample :
    construct 2147483647 false = some freshIntMax ∧ WellFormed nearIntMax ∧
    nearIntMax._iConsumer = 2147483646 ∧ nearIntMax._size = 3 ∧
    min nearIntMax._size 2 = 2 ∧
    (nearIntMax.read (some zeroMem) 2 0).ok = true ∧
    (nearIntMax.read (some zeroMem) 2 0).cb._iConsumer = -2147483648 ∧
    (nearIntMax._iConsumer + min nearIntMax._size 2) % nearIntMax._capacity = 1 := by
  refine ⟨rfl, by decide, by decide, by decide, by decide, by decide, by decide, by decide⟩

end CircularBuffer
